import Mathlib

/-!
Shallow embedding of the kibank container codec (src/lib.rs, src/write.rs,
src/read.rs) and verification of its specification claims.

Bytes are modelled as `Nat` values; byte streams as `List Nat`.  All 64-bit
unsigned arithmetic of the source is modelled on `Nat`, with an explicit
`% 2 ^ 64` at the operations where the source performs a wrapping `u64`
addition (release-mode semantics).  Strings of the source that reach the
byte level are encoded through an explicit UTF-8 encoder.
-/

namespace Kibank

/-- UTF-8 encoding of one Unicode scalar value (given as its `Nat` code). -/
def utf8EncodeNat (n : Nat) : List Nat :=
  if n < 0x80 then [n]
  else if n < 0x800 then [0xC0 + n / 64, 0x80 + n % 64]
  else if n < 0x10000 then [0xE0 + n / 4096, 0x80 + n / 64 % 64, 0x80 + n % 64]
  else [0xF0 + n / 262144, 0x80 + n / 4096 % 64, 0x80 + n / 64 % 64, 0x80 + n % 64]

/-- The UTF-8 bytes of a string, as `Nat`s. -/
def strBytes (s : String) : List Nat :=
  s.data.foldr (fun c acc => utf8EncodeNat c.toNat ++ acc) []

/-- ASCII lower-casing of a byte, as in Rust's `u8::to_ascii_lowercase`. -/
def asciiLowerByte (b : Nat) : Nat :=
  if 65 ≤ b ∧ b ≤ 90 then b + 32 else b

/-- ASCII lower-casing of a character, as in Rust's `char::to_ascii_lowercase`. -/
def asciiLowerChar (c : Char) : Char :=
  if 'A' ≤ c ∧ c ≤ 'Z' then Char.ofNat (c.toNat + 32) else c

/-- Rust `eq_ignore_ascii_case` on byte strings: equal length and bytes equal
up to ASCII case.  Stated via lower-casing both sides, which is equivalent. -/
def eqIgnoreAsciiCaseBytes (a b : List Nat) : Bool :=
  a.map asciiLowerByte == b.map asciiLowerByte

/-- Rust `eq_ignore_ascii_case` on (ASCII) character strings. -/
def eqIgnoreAsciiCaseChars (a b : List Char) : Bool :=
  a.map asciiLowerChar == b.map asciiLowerChar

/-- Little-endian base-256 digits, `k` bytes. -/
def natLE : Nat → Nat → List Nat
  | 0, _ => []
  | k + 1, n => n % 256 :: natLE k (n / 256)

/-- A `u64` written little-endian, as in `write_u64::<LittleEndian>`. -/
def u64le (n : Nat) : List Nat := natLE 8 n

/-- Decode a little-endian byte list back to a `Nat`. -/
def decodeLE (l : List Nat) : Nat :=
  l.foldr (fun b acc => b % 256 + 256 * acc) 0

/-! ## `ItemKind` (src/lib.rs) -/

/-- Types of files supported in banks (`ItemKind` in src/lib.rs), in their
declaration order, which is also the `Ord` order derived in the source. -/
inductive ItemKind
  | Background
  | Metadata
  | Sample
  | MultipassPreset
  | PhasePlantPreset
  | SnapHeapPreset
  | ThreeBandEq
  | Bitcrush
  | CarveEq
  | Chorus
  | CombFilter
  | Compressor
  | Convolver
  | Delay
  | Disperser
  | Distortion
  | Dynamics
  | Ensemble
  | Faturator
  | Filter
  | Flanger
  | FormatFilter
  | FrequencyShifter
  | Gain
  | Gate
  | Haas
  | LadderFilter
  | Limiter
  | NonlinearFilter
  | PhaseDistortion
  | Phaser
  | PitchShifter
  | Resonator
  | Reverb
  | Reverser
  | RingMod
  | SliceEq
  | Stereo
  | TapeStop
  | TranceGate
  | TransientShaper
deriving DecidableEq, Repr

/-- File name extensions used for each kind (`ItemKind::extensions`). -/
def ItemKind.extensions : ItemKind → List String
  | .Background => ["jpg", "png"]
  | .Metadata => ["json"]
  | .Sample => ["flac", "mp3", "wav"]
  | .MultipassPreset => ["multipass"]
  | .PhasePlantPreset => ["phaseplant"]
  | .SnapHeapPreset => ["snapheap"]
  | .ThreeBandEq => ["ksqe"]
  | .Bitcrush => ["ksbc"]
  | .CarveEq => ["ksge"]
  | .Chorus => ["ksch"]
  | .CombFilter => ["kscf"]
  | .Compressor => ["kscp"]
  | .Convolver => ["ksco"]
  | .Delay => ["ksdl"]
  | .Disperser => ["kdsp"]
  | .Distortion => ["ksdt"]
  | .Dynamics => ["ksot"]
  | .Ensemble => ["ksun"]
  | .Faturator => ["kfat"]
  | .Filter => ["ksfi"]
  | .Flanger => ["ksfl"]
  | .FormatFilter => ["ksvf"]
  | .FrequencyShifter => ["ksfs"]
  | .Gain => ["ksgn"]
  | .Gate => ["ksgt"]
  | .Haas => ["ksha"]
  | .LadderFilter => ["ksla"]
  | .Limiter => ["kslt"]
  | .NonlinearFilter => ["ksdf"]
  | .PhaseDistortion => ["kspd"]
  | .Phaser => ["ksph"]
  | .PitchShifter => ["ksps"]
  | .Resonator => ["ksre"]
  | .Reverb => ["ksrv"]
  | .Reverser => ["ksrr"]
  | .RingMod => ["ksrm"]
  | .SliceEq => ["kpeq"]
  | .Stereo => ["ksst"]
  | .TapeStop => ["ksts"]
  | .TranceGate => ["kstg"]
  | .TransientShaper => ["kstr"]

/-- Name of the directory containing files of this kind inside the bank
(`ItemKind::directory`). -/
def ItemKind.directory : ItemKind → Option String
  | .Background | .Metadata => none
  | .Sample => some "samples"
  | kind => kind.extensions.head?

/-- Every supported item kind, in the order of `ItemKind::all` in the source
(note: `Sample` appears after `SnapHeapPreset` here, unlike the declaration
order). -/
def ItemKind.all : List ItemKind :=
  [.Background, .Metadata, .MultipassPreset, .PhasePlantPreset, .SnapHeapPreset,
   .Sample, .ThreeBandEq, .Bitcrush, .CarveEq, .Chorus, .CombFilter,
   .Compressor, .Convolver, .Delay, .Disperser, .Distortion, .Dynamics,
   .Ensemble, .Faturator, .Filter, .Flanger, .FormatFilter, .FrequencyShifter,
   .Gain, .Gate, .Haas, .LadderFilter, .Limiter, .NonlinearFilter,
   .PhaseDistortion, .Phaser, .PitchShifter, .Resonator, .Reverb, .Reverser,
   .RingMod, .SliceEq, .Stereo, .TapeStop, .TranceGate, .TransientShaper]

/-- Every supported item kind in declaration order, i.e. the `Ord` order used
by the `BTreeSet` of kinds in `BankWriter::write`. -/
def ItemKind.allDecl : List ItemKind :=
  [.Background, .Metadata, .Sample, .MultipassPreset, .PhasePlantPreset,
   .SnapHeapPreset, .ThreeBandEq, .Bitcrush, .CarveEq, .Chorus, .CombFilter,
   .Compressor, .Convolver, .Delay, .Disperser, .Distortion, .Dynamics,
   .Ensemble, .Faturator, .Filter, .Flanger, .FormatFilter, .FrequencyShifter,
   .Gain, .Gate, .Haas, .LadderFilter, .Limiter, .NonlinearFilter,
   .PhaseDistortion, .Phaser, .PitchShifter, .Resonator, .Reverb, .Reverser,
   .RingMod, .SliceEq, .Stereo, .TapeStop, .TranceGate, .TransientShaper]

/-! ## Classifier (`ItemKind::from`, src/lib.rs) -/

/-- Index of the last `.` at position ≥ 1 in a file name, mirroring the
`rposition` over `slice[1..]` of Rust's `split_file_at_dot`. -/
def lastDotFromOne (name : List Char) : Option Nat :=
  match (name.drop 1).reverse.findIdx? (fun c => c = '.') with
  | none => none
  | some j => some (name.length - 1 - j)

/-- Rust's `split_file_at_dot`, yielding (file stem, extension): split at the
last dot not in leading position; `".."` and dot-less names have no
extension. -/
def splitFileAtDot (name : List Char) : List Char × Option (List Char) :=
  if name = ['.', '.'] then (name, none)
  else
    match lastDotFromOne name with
    | none => (name, none)
    | some i => (name.take i, some (name.drop (i + 1)))

/-- `ItemKind::from` applied to a path whose file name is `fileName`: the
whole file name is compared case-insensitively against `"index.json"` and
against `"background"`, then the extension is matched against each kind's
extension list in `ItemKind::all` order. -/
def classify (fileName : String) : Option ItemKind :=
  if eqIgnoreAsciiCaseChars fileName.data "index.json".data then some .Metadata
  else if eqIgnoreAsciiCaseChars fileName.data "background".data then some .Background
  else
    match (splitFileAtDot fileName.data).2 with
    | none => none
    | some ext =>
      ItemKind.all.find? (fun kind =>
        kind.extensions.any (fun e => eqIgnoreAsciiCaseChars e.data ext))

/-! ## Metadata record (src/lib.rs) -/

/-- The metadata record stored in a bank (`Metadata` in src/lib.rs).  The
unrecognized extra fields are modelled as string-valued key/value pairs. -/
structure Metadata where
  version : Option Nat
  id : String
  name : String
  author : String
  description : String
  hash : Option String
  extra : List (String × String)
deriving DecidableEq, Repr

/-- `Metadata::default()`. -/
def defaultMetadata : Metadata :=
  { version := none, id := "", name := "", author := "", description := "",
    hash := none, extra := [] }

/-- `Metadata::sanitize_id`: keep alphanumeric characters and dots, ASCII
lower-cased.  Rust's `char::is_alphanumeric` is modelled here for ASCII
input (the theorems about it carry an ASCII hypothesis). -/
def sanitizeId (s : List Char) : List Char :=
  s.filterMap (fun c => if c.isAlphanum || c = '.' then some (asciiLowerChar c) else none)

/-- The record actually serialized by `BankWriter::add_metadata`: when the id
is empty it is synthesized by joining the nonempty sanitized author and name
parts with a dot; otherwise the record is serialized unchanged. -/
def patchMetadata (m : Metadata) : Metadata :=
  if m.id = "" then
    let authorPart := sanitizeId m.author.data
    let namePart := sanitizeId m.name.data
    let idParts :=
      (if authorPart ≠ [] then [authorPart] else []) ++
      (if namePart ≠ [] then [namePart] else [])
    { m with id := String.mk (List.intercalate ['.'] idParts) }
  else m

/-- Minimal JSON string escaping (quote, backslash, the common control
characters); the serialization model for `serde_json`. -/
def jsonEscapeChar (c : Char) : List Char :=
  if c = '"' then ['\\', '"']
  else if c = '\\' then ['\\', '\\']
  else if c = '\n' then ['\\', 'n']
  else if c = '\t' then ['\\', 't']
  else if c = '\r' then ['\\', 'r']
  else [c]

/-- A JSON string literal for `s`. -/
def jsonStr (s : String) : String :=
  String.mk ('"' :: s.data.foldr (fun c acc => jsonEscapeChar c ++ acc) ['"'])

/-- Decimal digits of a `Nat` as characters. -/
def natDigits (n : Nat) : List Char :=
  (Nat.toDigits 10 n)

/-- JSON for an optional number field (absent options serialize as `null`,
matching the derived `Serialize` with no skip attributes). -/
def jsonOptNat : Option Nat → String
  | none => "null"
  | some n => String.mk (natDigits n)

/-- JSON for an optional string field. -/
def jsonOptStr : Option String → String
  | none => "null"
  | some s => jsonStr s

/-- Model of `serde_json::to_vec_pretty` for the metadata record: fields in
declaration order, two-space indentation, flattened extra fields appended. -/
def serializeMetadata (m : Metadata) : List Nat :=
  let fields : List String :=
    ["\"version\": " ++ jsonOptNat m.version,
     "\"id\": " ++ jsonStr m.id,
     "\"name\": " ++ jsonStr m.name,
     "\"author\": " ++ jsonStr m.author,
     "\"description\": " ++ jsonStr m.description,
     "\"hash\": " ++ jsonOptStr m.hash] ++
    m.extra.map (fun kv => jsonStr kv.1 ++ ": " ++ jsonStr kv.2)
  strBytes ("\x7b\n  " ++ String.intercalate ",\n  " fields ++ "\n\x7d")

/-! ## Container writer (src/write.rs) -/

/-- A pending write-side item (`Item` in src/write.rs): kind, payload bytes,
and the path within the bank including any leading directory. -/
structure WItem where
  kind : ItemKind
  contents : List Nat
  path_os : List Nat
deriving DecidableEq, Repr

/-- `BankWriter`: the underlying sink modelled as the bytes written so far,
the pending items, and the sealed flag. -/
structure BankWriter where
  inner : List Nat
  items : List WItem
  written : Bool
deriving DecidableEq, Repr

/-- `BankWriter::new`. -/
def BankWriter.new : BankWriter := { inner := [], items := [], written := false }

/-- The fixed path separator `/` inside banks (`PATH_SEPARATOR`). -/
def pathSeparatorByte : Nat := 47

/-- `BankWriter::add`: mutation modelled by returning the new state together
with the result; on error the state is returned unchanged. -/
def BankWriter.add (w : BankWriter) (kind : ItemKind) (fileName : List Nat)
    (contents : List Nat) : BankWriter × Except String Unit :=
  if w.written then
    (w, .error "Cannot add to a bank that has already been written")
  else
    let path :=
      match kind.directory with
      | some dir => strBytes dir ++ [pathSeparatorByte] ++ fileName
      | none => fileName
    ({ w with items := w.items ++ [{ kind := kind, contents := contents, path_os := path }] },
     .ok ())

/-- `BankWriter::add_metadata`: serializes the (possibly id-patched) record
and adds it under the fixed metadata file name. -/
def BankWriter.add_metadata (w : BankWriter) (m : Metadata) : BankWriter × Except String Unit :=
  w.add .Metadata (strBytes "index.json") (serializeMetadata (patchMetadata m))

/-- First step of `BankWriter::write`: synthesize default metadata when no
metadata item was added. -/
def withMetadata (w : BankWriter) : BankWriter :=
  if w.items.any (fun it => it.kind = .Metadata) then w
  else (w.add_metadata defaultMetadata).1

/-- The distinct kinds present among the items, in the `BTreeSet`
(declaration-`Ord`) order used by `BankWriter::write`. -/
def presentKinds (items : List WItem) : List ItemKind :=
  ItemKind.allDecl.filter (fun k => items.any (fun it => it.kind = k))

/-- Total location count: one per item plus one per distinct kind that
declares a directory. -/
def locationCount (items : List WItem) : Nat :=
  items.length + ((presentKinds items).filterMap ItemKind.directory).length

/-- The file-name block length as computed up front by `BankWriter::write`:
for each kind, the directory name (plus its terminating zero) if any, plus
every matching item's path (plus terminating zero). -/
def fileNameBlockLength (items : List WItem) (kinds : List ItemKind) : Nat :=
  (kinds.map (fun k =>
    (match k.directory with
     | some dir => (strBytes dir).length + 1
     | none => 0) +
    (items.map (fun it => if it.kind = k then it.path_os.length + 1 else 0)).sum)).sum

/-- One location-table entry as laid out by the writer's main loop: a
directory entry for a kind, or a file entry for an item. -/
inductive Entry
  | dir (name : List Nat)
  | file (path : List Nat) (contents : List Nat)
deriving DecidableEq, Repr

/-- The name bytes of an entry. -/
def entryName : Entry → List Nat
  | .dir n => n
  | .file p _ => p

/-- The payload bytes of an entry (directories have none). -/
def entryContents : Entry → List Nat
  | .dir _ => []
  | .file _ c => c

/-- The sequence of location-table entries emitted by `BankWriter::write`:
for each present kind in order, its directory entry (when the kind declares
a directory) followed by its items in insertion order. -/
def bankEntries (items : List WItem) (kinds : List ItemKind) : List Entry :=
  kinds.foldr (fun k acc =>
    (match k.directory with
     | some dir => [Entry.dir (strBytes dir)]
     | none => []) ++
    (items.filter (fun it => it.kind = k)).map (fun it => Entry.file it.path_os it.contents) ++
    acc) []

/-- The header bytes preceding the location table: file id, corruption check
bytes, format version, and the 8-byte location count field (24 bytes). -/
def locationBlockStart : Nat := 24

/-- Start of the payload area: header, location table, the 8-byte name-block
length field, and the name block itself. -/
def dataOffset0 (items : List WItem) : Nat :=
  locationBlockStart + locationCount items * 24 + 8 +
    fileNameBlockLength items (presentKinds items)

/-- Read-side location record (`Location` in src/lib.rs). -/
structure Location where
  file_name_offset : Nat
  data_offset : Nat
  data_size : Nat
deriving DecidableEq, Repr

/-- `Location::data_end`, a wrapping `u64` addition in release mode. -/
def Location.data_end (l : Location) : Nat :=
  (l.data_offset + l.data_size) % 2 ^ 64

/-- Read-side catalog item (`Item` in src/read.rs). -/
structure RItem where
  path_bytes : List Nat
  location : Location
deriving DecidableEq, Repr

/-- The catalog the writer lays out: walking the entries accumulates the
name-block offset, and the payload cursor advances by each file's size.
Directory entries are written with data offset and size 0. -/
def catalogOf (cursor nameOff : Nat) : List Entry → List RItem
  | [] => []
  | .dir n :: rest =>
    ⟨n, ⟨nameOff, 0, 0⟩⟩ :: catalogOf cursor (nameOff + n.length + 1) rest
  | .file p c :: rest =>
    ⟨p, ⟨nameOff, cursor, c.length⟩⟩ ::
      catalogOf (cursor + c.length) (nameOff + p.length + 1) rest

/-- Flatten a list of byte lists. -/
def flat (l : List (List Nat)) : List Nat := l.foldr (· ++ ·) []

/-- `FILE_ID`: the magic bytes `[137, b'k', b'H', b's']`. -/
def FILE_ID : List Nat := [137, 107, 72, 115]

/-- `CORRUPTION_CHECK_BYTES`: the PNG-style check sequence. -/
def CORRUPTION_CHECK_BYTES : List Nat := [13, 10, 26, 10]

/-- `FORMAT_VERSION`: the ASCII bytes of `"Bank0001"`. -/
def FORMAT_VERSION : List Nat := strBytes "Bank0001"

/-- The serialized location table: three little-endian `u64` fields per
catalog entry. -/
def locTableBytes (cat : List RItem) : List Nat :=
  flat (cat.map (fun it =>
    u64le it.location.file_name_offset ++ u64le it.location.data_offset ++
      u64le it.location.data_size))

/-- The name block: every entry's name followed by a terminating zero. -/
def nameBlockBytes (es : List Entry) : List Nat :=
  flat (es.map (fun e => entryName e ++ [0]))

/-- The payload area: every file entry's contents, concatenated. -/
def payloadBytes (es : List Entry) : List Nat :=
  flat (es.map entryContents)

/-- The catalog corresponding to the writer's layout: entries in emitted
order, names at their accumulated name-block offsets, payloads at the
accumulated cursor starting right after the name block. -/
def bankCatalog (items : List WItem) : List RItem :=
  catalogOf (dataOffset0 items) 0 (bankEntries items (presentKinds items))

/-- The full byte stream produced by `BankWriter::write` for a given final
item list (after metadata synthesis): header, location count, location
table, name-block length, name block, payloads. -/
def bankBytes (items : List WItem) : List Nat :=
  FILE_ID ++ CORRUPTION_CHECK_BYTES ++ FORMAT_VERSION ++
    u64le (locationCount items) ++
    locTableBytes (bankCatalog items) ++
    u64le (fileNameBlockLength items (presentKinds items)) ++
    nameBlockBytes (bankEntries items (presentKinds items)) ++
    payloadBytes (bankEntries items (presentKinds items))

/-- The (path, contents) pairs of the file entries, in order. -/
def fileEntries : List Entry → List (List Nat × List Nat)
  | [] => []
  | .dir _ :: rest => fileEntries rest
  | .file p c :: rest => (p, c) :: fileEntries rest

/-- The (path, data offset, data size) triples of consecutive file payloads
starting at `cursor`: each offset advances by the previous contents
length. -/
def fileLocList (cursor : Nat) : List (List Nat × List Nat) → List (List Nat × Nat × Nat)
  | [] => []
  | (p, c) :: rest => (p, cursor, c.length) :: fileLocList (cursor + c.length) rest

/-- Items regrouped by kind: for each kind in the given order, the matching
items in their original order. -/
def kindsFlatFilter (kinds : List ItemKind) (items : List WItem) : List WItem :=
  kinds.foldr (fun k acc => items.filter (fun it => it.kind = k) ++ acc) []

/-- The writer's items in on-disk order: grouped by the present kinds in
enumeration order, insertion order within each kind. -/
def groupedItems (items : List WItem) : List WItem :=
  kindsFlatFilter (presentKinds items) items

/-- The layout recurrence of claim C6, checked positionally against a
catalog: directory entries carry data offset and size 0; each file entry's
data offset equals the running cursor, which advances by its payload
length. -/
def offsetsAdvance : Nat → List Entry → List RItem → Bool
  | _, [], [] => true
  | cursor, .dir _ :: es, it :: cat =>
    it.location.data_offset == 0 && it.location.data_size == 0 &&
      offsetsAdvance cursor es cat
  | cursor, .file _ c :: es, it :: cat =>
    it.location.data_offset == cursor && it.location.data_size == c.length &&
      offsetsAdvance (cursor + c.length) es cat
  | _, _, _ => false

/-- A sequence of `add` calls against a writer, mirroring a caller adding
`(kind, file name, contents)` triples one by one. -/
def addAll (w : BankWriter) : List (ItemKind × List Nat × List Nat) → BankWriter
  | [] => w
  | (k, n, c) :: rest => addAll (w.add k n c).1 rest

/-- The writer's final item list at commit time: the added items plus the
synthesized default metadata when none was added. -/
def finalItems (adds : List (ItemKind × List Nat × List Nat)) : List WItem :=
  (withMetadata (addAll BankWriter.new adds)).items

/-- The single `add` of an item with empty contents used to refute the
unrestricted round-trip claim. -/
def emptyContentAdds : List (ItemKind × List Nat × List Nat) :=
  [(ItemKind.Background, strBytes "x", [])]

/-- The single `add` of an item whose file name carries an interior NUL
byte (`"a\x00b"`), the second refutation of the unrestricted round-trip
claim: `read_until(0)` truncates the stored name at the interior zero. -/
def nulNameAdds : List (ItemKind × List Nat × List Nat) :=
  [(ItemKind.Background, [97, 0, 98], [1])]

/-- `BankWriter::write`: seals the writer and appends the serialized bank to
the sink; fails (mutating nothing) when already written. -/
def BankWriter.write (w : BankWriter) : BankWriter × Except String Unit :=
  if w.written then
    (w, .error "The bank has already been written")
  else
    let w1 := withMetadata w
    ({ inner := w1.inner ++ bankBytes w1.items, items := w1.items, written := true },
     .ok ())

/-! ## Container reader (src/read.rs) -/

/-- `Item::is_directory`. -/
def RItem.is_directory (it : RItem) : Bool := it.location.data_size == 0

/-- `Item::is_file`. -/
def RItem.is_file (it : RItem) : Bool := !(it.location.data_size == 0)

/-- `Item::is_metadata_file`: a file whose raw path equals `"index.json"`
up to ASCII case. -/
def RItem.is_metadata_file (it : RItem) : Bool :=
  it.is_file && eqIgnoreAsciiCaseBytes it.path_bytes (strBytes "index.json")

/-- Parse errors of `BankReader::new`, tagged with the data the source
reports. -/
inductive ReadErr
  | eof
  | notABank
  | badCheckBytes (bs : List Nat)
  | badVersion (bs : List Nat)
  | zeroLengthName (pos : Nat)
  | pastNameBlock
  | overlap (p1 p2 : List Nat)
deriving DecidableEq, Repr

/-- `read_exact` of `n` bytes at stream position `pos`: fails when fewer
than `n` bytes remain. -/
def readExactAt (bytes : List Nat) (pos n : Nat) : Option (List Nat) :=
  if pos + n ≤ bytes.length then some (((bytes.drop pos).take n).map (· % 256))
  else none

/-- `read_u64::<LittleEndian>` at stream position `pos`. -/
def readU64At (bytes : List Nat) (pos : Nat) : Option Nat :=
  (readExactAt bytes pos 8).map decodeLE

/-- The loop reading `count` fixed-size location records; returns the records
and the stream position after them. -/
def parseLocations (bytes : List Nat) (pos : Nat) : Nat → Option (List Location × Nat)
  | 0 => some ([], pos)
  | n + 1 =>
    match readU64At bytes pos, readU64At bytes (pos + 8), readU64At bytes (pos + 16) with
    | some a, some b, some c =>
      match parseLocations bytes (pos + 24) n with
      | some (rest, p) => some (⟨a, b, c⟩ :: rest, p)
      | none => none
    | _, _, _ => none

/-- The bytes consumed by `read_until(0)`: everything up to and including
the first zero byte, or to the end of the stream. -/
def spanUntilZero : List Nat → List Nat
  | [] => []
  | b :: rest => if b = 0 then [0] else b :: spanUntilZero rest

/-- `read_until(0)` starting at stream position `pos`. -/
def readUntilZero (bytes : List Nat) (pos : Nat) : List Nat :=
  spanUntilZero ((bytes.drop pos).map (· % 256))

/-- Remove the trailing zero byte, absent only when the read was truncated
at end of file. -/
def stripTrailingZero : List Nat → List Nat
  | [] => []
  | [b] => if b = 0 then [] else [b]
  | b :: rest => b :: stripTrailingZero rest

/-- Reading one item name: seek to the name position, read to the first
zero, check the read was nonempty and within the name block, strip the
terminator.  The `u64` additions wrap as in the source. -/
def readItemName (bytes : List Nat) (fnbs fnbl : Nat) (loc : Location) :
    Except ReadErr (List Nat) :=
  let fnp := (loc.file_name_offset + fnbs) % 2 ^ 64
  let nameRead := readUntilZero bytes fnp
  if nameRead.length = 0 then .error (.zeroLengthName fnp)
  else if (fnbs + fnbl) % 2 ^ 64 < (fnp + nameRead.length) % 2 ^ 64 then
    .error .pastNameBlock
  else .ok (stripTrailingZero nameRead)

/-- The loop constructing the catalog items from the parsed locations. -/
def readItems (bytes : List Nat) (fnbs fnbl : Nat) :
    List Location → Except ReadErr (List RItem)
  | [] => .ok []
  | loc :: rest =>
    match readItemName bytes fnbs fnbl loc with
    | .error e => .error e
    | .ok name =>
      match readItems bytes fnbs fnbl rest with
      | .error e => .error e
      | .ok items => .ok (⟨name, loc⟩ :: items)

/-- The ordering used by `sort_by_key` on `data_offset`. -/
def byOffset (a b : RItem) : Prop :=
  a.location.data_offset ≤ b.location.data_offset

instance : DecidableRel byOffset := fun a b =>
  Nat.decLe a.location.data_offset b.location.data_offset

instance : IsTotal RItem byOffset :=
  ⟨fun a b => Nat.le_total a.location.data_offset b.location.data_offset⟩

instance : IsTrans RItem byOffset :=
  ⟨fun _ _ _ => Nat.le_trans⟩

/-- The file items (nonzero payload length) sorted stably by payload offset,
as prepared for the overlap check (`sort_by_key` is a stable sort, as is
insertion sort). -/
def sortedFileItems (items : List RItem) : List RItem :=
  List.insertionSort byOffset (items.filter (fun it => it.is_file))

/-- The overlap check over adjacent pairs in offset order: the first item's
(wrapping) data end must not exceed the second item's data offset. -/
def checkOverlap : List RItem → Except ReadErr Unit
  | a :: b :: rest =>
    if b.location.data_offset < a.location.data_end then
      .error (.overlap a.path_bytes b.path_bytes)
    else checkOverlap (b :: rest)
  | _ => .ok ()

/-- `BankReader::new`: parse and validate the whole catalog. -/
def bankReaderNew (bytes : List Nat) : Except ReadErr (List RItem) :=
  match readExactAt bytes 0 4 with
  | none => .error .eof
  | some fid =>
    if fid ≠ FILE_ID then .error .notABank
    else
      match readExactAt bytes 4 4 with
      | none => .error .eof
      | some cb =>
        if cb ≠ CORRUPTION_CHECK_BYTES then .error (.badCheckBytes cb)
        else
          match readExactAt bytes 8 8 with
          | none => .error .eof
          | some fv =>
            if fv ≠ FORMAT_VERSION then .error (.badVersion fv)
            else
              match readU64At bytes 16 with
              | none => .error .eof
              | some location_count =>
                match parseLocations bytes 24 location_count with
                | none => .error .eof
                | some (locations, pos) =>
                  match readU64At bytes pos with
                  | none => .error .eof
                  | some fnbl =>
                    match readItems bytes (pos + 8) fnbl locations with
                    | .error e => .error e
                    | .ok items =>
                      match checkOverlap (sortedFileItems items) with
                      | .error e => .error e
                      | .ok _ => .ok items

/-- `BankReader::read_contents`: seek to the item's payload offset and read
exactly its declared length. -/
def readContents (bytes : List Nat) (it : RItem) : Option (List Nat) :=
  readExactAt bytes it.location.data_offset it.location.data_size

/-- Decidable equality of results, for evaluating the model on concrete
containers. -/
instance exceptDecEq {ε α : Type} [DecidableEq ε] [DecidableEq α] :
    DecidableEq (Except ε α) := fun a b =>
  match a, b with
  | .ok x, .ok y =>
    if h : x = y then isTrue (by rw [h]) else isFalse (by intro hc; cases hc; exact h rfl)
  | .error x, .error y =>
    if h : x = y then isTrue (by rw [h]) else isFalse (by intro hc; cases hc; exact h rfl)
  | .ok _, .error _ => isFalse (by intro hc; cases hc)
  | .error _, .ok _ => isFalse (by intro hc; cases hc)

/-- A crafted container with two file locations whose payload ranges
overlap: items `a` at `[200, 250)` and `b` at `[220, 270)`. -/
def overlappingBank : List Nat :=
  FILE_ID ++ CORRUPTION_CHECK_BYTES ++ FORMAT_VERSION ++ u64le 2 ++
    u64le 0 ++ u64le 200 ++ u64le 50 ++
    u64le 2 ++ u64le 220 ++ u64le 50 ++
    u64le 4 ++ [97, 0, 98, 0]

/-- A crafted container with a single file location whose `data_offset` and
`data_size` are both `2^64 - 1`: their sum exceeds the `u64` range, yet the
adjacent-pair overlap check is vacuous for a single file item. -/
def hugeRangeBank : List Nat :=
  FILE_ID ++ CORRUPTION_CHECK_BYTES ++ FORMAT_VERSION ++ u64le 1 ++
    u64le 0 ++ u64le (2 ^ 64 - 1) ++ u64le (2 ^ 64 - 1) ++ u64le 2 ++ [97, 0]

/-- A small well-formed container with a single file item `a` at
`[100, 105)` (payload bytes beyond the catalog are never validated at open
time). -/
def smallOkBank : List Nat :=
  FILE_ID ++ CORRUPTION_CHECK_BYTES ++ FORMAT_VERSION ++ u64le 1 ++
    u64le 0 ++ u64le 100 ++ u64le 5 ++ u64le 2 ++ [97, 0]

-- ## Theorems

set_option maxRecDepth 10000

/-- Claim C3, counterexample: the claim states every non-Background,
non-Metadata kind's directory equals its first listed extension, but
`Sample`'s directory is `"samples"` while its first extension is
`"flac"`. -/
theorem c3_counterexample :
    ItemKind.Sample.directory = some "samples" ∧
    ItemKind.Sample.extensions.head? = some "flac" ∧
    ("samples" : String) ≠ "flac" := by decide

/-- Claim C3, amended: `Background` and `Metadata` have no directory; every
other kind has exactly one directory name; for `Sample` it is `"samples"`,
and for every other such kind it equals the kind's first listed
extension. -/
theorem c3_directory_amended (k : ItemKind) :
    ((k = .Background ∨ k = .Metadata) → k.directory = none) ∧
    (¬(k = .Background ∨ k = .Metadata) → k.directory.isSome = true) ∧
    (k = .Sample → k.directory = some "samples") ∧
    (¬(k = .Background ∨ k = .Metadata ∨ k = .Sample) →
      k.directory = k.extensions.head?) := by
  cases k <;> decide

/-- Claim C3, witness: the amended statement evaluated at `Chorus`. -/
theorem c3_directory_amended_witness :
    ItemKind.Chorus.directory = ItemKind.Chorus.extensions.head? :=
  (c3_directory_amended ItemKind.Chorus).2.2.2 (by decide)

/-- Claim C4, counterexample: `"background.gif"` has file stem
`"background"` and is not `"index.json"`, yet the classifier returns
`none` — the source matches the whole file name, not the stem, against the
background stem, and `"gif"` is no kind's extension. -/
theorem c4_counterexample :
    (splitFileAtDot "background.gif".data).1 = "background".data ∧
    eqIgnoreAsciiCaseChars "background.gif".data "index.json".data = false ∧
    classify "background.gif" = none := by decide

/-- Claim C4, amended: classification yields `Background` when the whole
file name (not merely its stem) case-insensitively equals
`"background"`. -/
theorem c4_background_amended (name : String)
    (h : eqIgnoreAsciiCaseChars name.data "background".data = true) :
    classify name = some ItemKind.Background := by
  have h1 : name.data.map asciiLowerChar = "background".data.map asciiLowerChar := by
    simpa [eqIgnoreAsciiCaseChars] using h
  have h2 : eqIgnoreAsciiCaseChars name.data "index.json".data = false := by
    simp only [eqIgnoreAsciiCaseChars, h1]
    decide
  simp [classify, h, h2]

/-- Claim C4, witness: the amended statement evaluated at
`"BACKGROUND"`. -/
theorem c4_background_amended_witness :
    classify "BACKGROUND" = some ItemKind.Background :=
  c4_background_amended "BACKGROUND" (by decide)

/-- Claim C8: with an empty id, the serialized record's id is the sanitized
author and name parts (lower-cased, everything but alphanumerics and dots
removed), the nonempty parts joined with a dot; author `"Author"` and name
`"Title"` yield `"author.title"`; a record with nonempty id is serialized
unchanged.  The ASCII hypotheses delimit the model of Rust's Unicode
`char::is_alphanumeric`. -/
theorem c8_metadata_id (m : Metadata)
    (_hA : ∀ c ∈ m.author.data, c.toNat < 128)
    (_hN : ∀ c ∈ m.name.data, c.toNat < 128) :
    (m.id = "" →
      (patchMetadata m).id.data =
        List.intercalate ['.']
          (([m.author.data, m.name.data].map sanitizeId).filter (fun p => p ≠ []))) ∧
    (m.id ≠ "" → patchMetadata m = m) ∧
    (patchMetadata { defaultMetadata with author := "Author", name := "Title" }).id =
      "author.title" := by
  refine ⟨?_, ?_, by decide⟩
  · intro hid
    by_cases ha : sanitizeId m.author.data = [] <;>
      by_cases hn : sanitizeId m.name.data = [] <;>
      simp [patchMetadata, hid, ha, hn, List.intercalate]
  · intro hid
    simp [patchMetadata, hid]

/-- Claim C8, witness: the theorem evaluated at a record with author
`"Author"`, name `"Title"` and empty id. -/
theorem c8_metadata_id_witness :
    (patchMetadata { defaultMetadata with author := "Author", name := "Title" }).id =
      "author.title" :=
  (c8_metadata_id { defaultMetadata with author := "Author", name := "Title" }
    (by decide) (by decide)).2.2

/-- Claim C5: once `write` has succeeded the writer is sealed — `add` and
`add_metadata` fail with the "already been written" error and return the
state unchanged (no item added, no byte written), and a second `write`
fails likewise without writing. -/
theorem c5_sealed (w : BankWriter) (h : (w.write).2 = .ok ()) :
    (∀ kind fileName contents,
      ((w.write).1.add kind fileName contents) =
        ((w.write).1, .error "Cannot add to a bank that has already been written")) ∧
    (∀ m, ((w.write).1.add_metadata m) =
        ((w.write).1, .error "Cannot add to a bank that has already been written")) ∧
    ((w.write).1.write = ((w.write).1, .error "The bank has already been written")) := by
  have hw : (w.write).1.written = true := by
    by_cases hb : w.written
    · exfalso
      simp [BankWriter.write, hb] at h
    · simp [BankWriter.write, hb]
  refine ⟨?_, ?_, ?_⟩
  · intro kind fileName contents
    simp [BankWriter.add, hw]
  · intro m
    simp [BankWriter.add_metadata, BankWriter.add, hw]
  · obtain ⟨w', hww⟩ : ∃ w', (w.write).1 = w' := ⟨_, rfl⟩
    rw [hww] at hw ⊢
    simp [BankWriter.write, hw]

/-- Claim C5, witness: a fresh writer commits successfully, after which a
second `write` fails and changes nothing. -/
theorem c5_sealed_witness :
    (BankWriter.new.write).1.write =
      ((BankWriter.new.write).1, .error "The bank has already been written") :=
  (c5_sealed BankWriter.new (by decide)).2.2

/-- Claim C7: committing a writer with no items produces a container the
reader opens successfully, whose catalog is exactly one item named
`"index.json"` that satisfies `is_metadata_file` and whose payload is the
serialized default metadata record. -/
theorem c7_blank_roundtrip :
    (BankWriter.new.write).2 = .ok () ∧
    bankReaderNew ((BankWriter.new.write).1.inner) =
      .ok [⟨strBytes "index.json", ⟨0, 67, 100⟩⟩] ∧
    RItem.is_metadata_file ⟨strBytes "index.json", ⟨0, 67, 100⟩⟩ = true ∧
    readContents ((BankWriter.new.write).1.inner) ⟨strBytes "index.json", ⟨0, 67, 100⟩⟩ =
      some (serializeMetadata defaultMetadata) := by decide

/-- The bytes delivered by `read_until(0)`, after stripping the trailing
terminator, never contain a zero byte. -/
theorem stripSpan_no_zero (l : List Nat) : 0 ∉ stripTrailingZero (spanUntilZero l) := by
  induction l with
  | nil => simp [spanUntilZero, stripTrailingZero]
  | cons b rest ih =>
    by_cases hb : b = 0
    · simp [spanUntilZero, hb, stripTrailingZero]
    · cases hsp : spanUntilZero rest with
      | nil =>
        simp [spanUntilZero, hb, hsp, stripTrailingZero]
        exact fun he => hb he.symm
      | cons c t =>
        rw [hsp] at ih
        simp [spanUntilZero, hb, hsp, stripTrailingZero]
        exact ⟨fun he => hb he.symm, ih⟩

/-- A successfully read item name is the zero-terminated read with its
terminator stripped. -/
theorem readItemName_ok {bytes : List Nat} {fnbs fnbl : Nat} {loc : Location}
    {name : List Nat} (h : readItemName bytes fnbs fnbl loc = .ok name) :
    name = stripTrailingZero (readUntilZero bytes ((loc.file_name_offset + fnbs) % 2 ^ 64)) := by
  simp only [readItemName] at h
  split at h
  · cases h
  · split at h
    · cases h
    · cases h
      rfl

/-- Every item produced by the name-reading loop has a zero-free path. -/
theorem readItems_ok_names {bytes : List Nat} {fnbs fnbl : Nat} :
    ∀ {locs : List Location} {items : List RItem},
      readItems bytes fnbs fnbl locs = .ok items →
      ∀ it ∈ items, 0 ∉ it.path_bytes := by
  intro locs
  induction locs with
  | nil =>
    intro items h it hit
    cases h
    simp at hit
  | cons loc rest ih =>
    intro items h it hit
    cases hn : readItemName bytes fnbs fnbl loc with
    | error e => simp [readItems, hn] at h
    | ok name =>
      cases hr : readItems bytes fnbs fnbl rest with
      | error e => simp [readItems, hn, hr] at h
      | ok tl =>
        simp [readItems, hn, hr] at h
        subst h
        cases hit with
        | head =>
          show 0 ∉ name
          rw [readItemName_ok hn]
          exact stripSpan_no_zero _
        | tail _ hmem => exact ih hr it hmem

/-- Inversion of a successful `BankReader::new`: the catalog came from the
name-reading loop, and the overlap check passed. -/
theorem bankReaderNew_ok_inv {bytes : List Nat} {items : List RItem}
    (h : bankReaderNew bytes = .ok items) :
    (∃ fnbs fnbl locs, readItems bytes fnbs fnbl locs = .ok items) ∧
      checkOverlap (sortedFileItems items) = .ok () := by
  unfold bankReaderNew at h
  repeat' split at h
  all_goals try cases h
  rename_i a hitems hcheck
  exact ⟨⟨_, _, _, hitems⟩, by cases a; exact hcheck⟩

/-- Claim C9: on every container accepted by the reader, no catalog item's
path contains a zero byte. -/
theorem c9_no_zero_paths (bytes : List Nat) (items : List RItem)
    (h : bankReaderNew bytes = .ok items) :
    ∀ it ∈ items, ∀ b ∈ it.path_bytes, b ≠ 0 := by
  obtain ⟨⟨fnbs, fnbl, locs, hread⟩, -⟩ := bankReaderNew_ok_inv h
  intro it hit b hb hb0
  exact readItems_ok_names hread it hit (hb0 ▸ hb)

/-- Claim C9, witness: the statement applied to a small accepted container,
instantiated at its single item and that item's single path byte. -/
theorem c9_no_zero_paths_witness : (97 : Nat) ≠ 0 :=
  c9_no_zero_paths smallOkBank [⟨[97], ⟨0, 100, 5⟩⟩] (by decide)
    ⟨[97], ⟨0, 100, 5⟩⟩ (by decide) 97 (by decide)

/-- A passed overlap check means every adjacent pair in offset order has the
first's (wrapping) data end at or before the second's offset. -/
theorem checkOverlap_ok : ∀ {l : List RItem}, checkOverlap l = .ok () →
    List.Chain' (fun a b => a.location.data_end ≤ b.location.data_offset) l
  | [] => fun _ => List.chain'_nil
  | [a] => fun _ => List.chain'_singleton a
  | a :: b :: rest => fun h => by
    simp only [checkOverlap] at h
    split at h
    · cases h
    · rename_i hlt
      rw [List.chain'_cons]
      exact ⟨Nat.not_lt.mp hlt, checkOverlap_ok h⟩

/-- Claim C2: a crafted container with two overlapping file payload ranges
(`a` at `[200, 250)`, `b` at `[220, 270)`) is rejected with the structural
error naming both items; and on every accepted container, the file items
sorted by payload offset satisfy, for each adjacent pair, first `data_end`
≤ second `data_offset`. -/
theorem c2_overlap_check :
    bankReaderNew overlappingBank = .error (.overlap [97] [98]) ∧
    ∀ (bytes : List Nat) (items : List RItem), bankReaderNew bytes = .ok items →
      List.Chain' (fun a b => a.location.data_end ≤ b.location.data_offset)
        (sortedFileItems items) := by
  refine ⟨by decide, ?_⟩
  intro bytes items h
  exact checkOverlap_ok (bankReaderNew_ok_inv h).2

/-- Claim C2, witness: the universal part applied to a small accepted
container. -/
theorem c2_overlap_check_witness :
    List.Chain' (fun a b => a.location.data_end ≤ b.location.data_offset)
      (sortedFileItems [⟨[97], ⟨0, 100, 5⟩⟩]) :=
  c2_overlap_check.2 smallOkBank [⟨[97], ⟨0, 100, 5⟩⟩] (by decide)

/-- Claim C10, counterexample: the reader accepts a container with a single
file item whose `data_offset` and `data_size` are both `2^64 - 1`, so
acceptance does not bound `data_offset + data_size` by `2^64 - 1` — the
adjacent-pair check is vacuous for the last item in offset order. -/
theorem c10_counterexample :
    bankReaderNew hugeRangeBank = .ok [⟨[97], ⟨0, 2 ^ 64 - 1, 2 ^ 64 - 1⟩⟩] ∧
    ¬((2 ^ 64 - 1) + (2 ^ 64 - 1) ≤ 2 ^ 64 - 1) := by decide

/-- Sorted offsets plus the adjacent-pair check plus non-wrapping sums give
genuinely pairwise-ordered payload ranges. -/
theorem chain_disjoint {l : List RItem}
    (hs : l.Pairwise byOffset)
    (hc : List.Chain' (fun a b => a.location.data_end ≤ b.location.data_offset) l)
    (hb : ∀ it ∈ l, it.location.data_offset + it.location.data_size < 2 ^ 64) :
    l.Pairwise (fun a b =>
      a.location.data_offset + a.location.data_size ≤ b.location.data_offset) := by
  induction l with
  | nil => exact List.Pairwise.nil
  | cons a t ih =>
    rw [List.pairwise_cons] at hs ⊢
    refine ⟨?_, ih hs.2 hc.tail (fun it hit => hb it (List.mem_cons_of_mem a hit))⟩
    cases t with
    | nil => simp
    | cons c t2 =>
      intro b hbmem
      have hac : a.location.data_end ≤ c.location.data_offset := (List.chain'_cons.mp hc).1
      have haend : a.location.data_end = a.location.data_offset + a.location.data_size :=
        Nat.mod_eq_of_lt (hb a (List.mem_cons_self a _))
      have hcb : c.location.data_offset ≤ b.location.data_offset := by
        cases hbmem with
        | head => exact Nat.le_refl _
        | tail _ hmem => exact (List.pairwise_cons.mp hs.2).1 b hmem
      exact le_trans (haend ▸ hac) hcb

/-- Claim C10, amended: acceptance alone does not bound an individual file
item's `data_offset + data_size` (see the counterexample); but on every
accepted container whose file items all have non-wrapping
`data_offset + data_size`, the payload ranges are pairwise disjoint. -/
theorem c10_amended (bytes : List Nat) (items : List RItem)
    (h : bankReaderNew bytes = .ok items)
    (hb : ∀ it ∈ items, it.location.data_offset + it.location.data_size < 2 ^ 64) :
    (items.filter (fun it => it.is_file)).Pairwise (fun a b =>
      a.location.data_offset + a.location.data_size ≤ b.location.data_offset ∨
      b.location.data_offset + b.location.data_size ≤ a.location.data_offset) := by
  have hchain := checkOverlap_ok (bankReaderNew_ok_inv h).2
  have hperm : (sortedFileItems items).Perm (items.filter (fun it => it.is_file)) :=
    List.perm_insertionSort byOffset _
  have hsorted : (sortedFileItems items).Pairwise byOffset :=
    List.sorted_insertionSort byOffset _
  have hbs : ∀ it ∈ sortedFileItems items,
      it.location.data_offset + it.location.data_size < 2 ^ 64 := by
    intro it hit
    exact hb it (List.mem_of_mem_filter (hperm.mem_iff.mp hit))
  have hp := chain_disjoint hsorted hchain hbs
  have hsymm : ∀ {x y : RItem},
      (x.location.data_offset + x.location.data_size ≤ y.location.data_offset ∨
        y.location.data_offset + y.location.data_size ≤ x.location.data_offset) →
      (y.location.data_offset + y.location.data_size ≤ x.location.data_offset ∨
        x.location.data_offset + x.location.data_size ≤ y.location.data_offset) :=
    fun hxy => hxy.symm
  exact (List.Perm.pairwise_iff hsymm hperm).mp (hp.imp Or.inl)

/-- Claim C10, witness: the amended statement applied to a small accepted
container. -/
theorem c10_amended_witness :
    ([(⟨[97], ⟨0, 100, 5⟩⟩ : RItem)].filter (fun it => it.is_file)).Pairwise (fun a b =>
      a.location.data_offset + a.location.data_size ≤ b.location.data_offset ∨
      b.location.data_offset + b.location.data_size ≤ a.location.data_offset) :=
  c10_amended smallOkBank [⟨[97], ⟨0, 100, 5⟩⟩] (by decide) (by decide)


theorem natLE_length (k n : Nat) : (natLE k n).length = k := by
  induction k generalizing n with
  | zero => rfl
  | succ k ih => simp [natLE, ih]

theorem natLE_lt (k n : Nat) : ∀ b ∈ natLE k n, b < 256 := by
  induction k generalizing n with
  | zero => intro b hb; simp [natLE] at hb
  | succ k ih =>
    intro b hb
    simp only [natLE, List.mem_cons] at hb
    rcases hb with h | h
    · exact h ▸ Nat.mod_lt _ (by omega)
    · exact ih _ b h

theorem decodeLE_natLE (k n : Nat) : decodeLE (natLE k n) = n % 256 ^ k := by
  induction k generalizing n with
  | zero => simp [natLE, decodeLE, Nat.mod_one]
  | succ k ih =>
    have h1 : decodeLE (natLE (k + 1) n) = n % 256 % 256 + 256 * decodeLE (natLE k (n / 256)) := by
      simp [natLE, decodeLE]
    rw [h1, ih, pow_succ, mul_comm (256 ^ k) 256, Nat.mod_mul, Nat.mod_mod_of_dvd n (dvd_refl 256)]

theorem u64le_length (n : Nat) : (u64le n).length = 8 := natLE_length 8 n

theorem u64le_lt (n : Nat) : ∀ b ∈ u64le n, b < 256 := natLE_lt 8 n

theorem decodeLE_u64le (n : Nat) : decodeLE (u64le n) = n % 2 ^ 64 := by
  have := decodeLE_natLE 8 n
  norm_num at this ⊢
  exact this

theorem map_mod_of_lt {l : List Nat} (h : ∀ b ∈ l, b < 256) : l.map (· % 256) = l := by
  induction l with
  | nil => rfl
  | cons b rest ih =>
    simp only [List.map_cons]
    rw [Nat.mod_eq_of_lt (h b (List.mem_cons_self b rest)),
      ih (fun x hx => h x (List.mem_cons_of_mem b hx))]

theorem readExactAt_eq {bytes seg rest : List Nat} {pos : Nat}
    (h : bytes.drop pos = seg ++ rest) (hn : 0 < seg.length) :
    readExactAt bytes pos seg.length = some (seg.map (· % 256)) := by
  have hpos : pos < bytes.length := by
    by_contra hc
    rw [List.drop_eq_nil_of_le (by omega)] at h
    have := congrArg List.length h
    simp [List.length_append] at this
    omega
  have hlen : pos + seg.length ≤ bytes.length := by
    have := congrArg List.length h
    rw [List.length_drop, List.length_append] at this
    omega
  unfold readExactAt
  rw [if_pos hlen, h, List.take_left]

theorem readU64At_eq {bytes rest : List Nat} {pos v : Nat}
    (h : bytes.drop pos = u64le v ++ rest) :
    readU64At bytes pos = some (v % 2 ^ 64) := by
  have h8 : (u64le v).length = 8 := u64le_length v
  have := readExactAt_eq h (by omega)
  rw [h8] at this
  rw [readU64At, this]
  simp [map_mod_of_lt (u64le_lt v), decodeLE_u64le]

theorem flat_cons (x : List Nat) (l : List (List Nat)) : flat (x :: l) = x ++ flat l := rfl

theorem flat_append (a b : List (List Nat)) : flat (a ++ b) = flat a ++ flat b := by
  induction a with
  | nil => rfl
  | cons x xs ih => simp [flat_cons, ih, List.append_assoc]

theorem drop_append_eq {pre x : List Nat} {pos : Nat} (h : pre.length = pos) :
    (pre ++ x).drop pos = x := by
  subst h
  exact List.drop_left pre x



theorem drop_chunk {bytes chunk restAll : List Nat} {pos : Nat}
    (h : bytes.drop pos = chunk ++ restAll) :
    bytes.drop (pos + chunk.length) = restAll := by
  have hd := List.drop_drop chunk.length pos bytes
  rw [← hd, h, drop_append_eq rfl]

theorem locTableBytes_cons (it : RItem) (cat : List RItem) :
    locTableBytes (it :: cat) =
      u64le it.location.file_name_offset ++ u64le it.location.data_offset ++
        u64le it.location.data_size ++ locTableBytes cat := by
  simp [locTableBytes, flat_cons, List.append_assoc]

theorem parseLocations_eq {bytes : List Nat} :
    ∀ {cat : List RItem} {pos : Nat} {rest : List Nat},
      bytes.drop pos = locTableBytes cat ++ rest →
      (∀ it ∈ cat, it.location.file_name_offset < 2 ^ 64 ∧
        it.location.data_offset < 2 ^ 64 ∧ it.location.data_size < 2 ^ 64) →
      parseLocations bytes pos cat.length = some (cat.map (·.location), pos + 24 * cat.length) := by
  intro cat
  induction cat with
  | nil =>
    intro pos rest h hb
    simp [parseLocations]
  | cons it cat ih =>
    intro pos rest h hb
    rw [locTableBytes_cons] at h
    obtain ⟨h1, h2, h3⟩ := hb it (List.mem_cons_self it cat)
    have ha : bytes.drop pos = u64le it.location.file_name_offset ++
        (u64le it.location.data_offset ++ u64le it.location.data_size ++
          locTableBytes cat ++ rest) := by
      rw [h]; simp [List.append_assoc]
    have hra : readU64At bytes pos = some it.location.file_name_offset := by
      rw [readU64At_eq ha, Nat.mod_eq_of_lt h1]
    have hb1 : bytes.drop (pos + 8) = u64le it.location.data_offset ++
        (u64le it.location.data_size ++ locTableBytes cat ++ rest) := by
      have hdc := drop_chunk ha
      rw [u64le_length] at hdc
      rw [hdc]; simp [List.append_assoc]
    have hrb : readU64At bytes (pos + 8) = some it.location.data_offset := by
      rw [readU64At_eq hb1, Nat.mod_eq_of_lt h2]
    have hc1 : bytes.drop (pos + 16) = u64le it.location.data_size ++
        (locTableBytes cat ++ rest) := by
      have hdc := drop_chunk hb1
      rw [u64le_length] at hdc
      rw [show pos + 16 = pos + 8 + 8 from by omega, hdc]
      simp [List.append_assoc]
    have hrc : readU64At bytes (pos + 16) = some it.location.data_size := by
      rw [readU64At_eq hc1, Nat.mod_eq_of_lt h3]
    have hd24 : bytes.drop (pos + 24) = locTableBytes cat ++ rest := by
      have hdc := drop_chunk hc1
      rw [u64le_length] at hdc
      rw [show pos + 24 = pos + 16 + 8 from by omega, hdc]
    have hrec := ih hd24 (fun x hx => hb x (List.mem_cons_of_mem it hx))
    show parseLocations bytes pos (cat.length + 1) = _
    rw [parseLocations, hra, hrb, hrc, hrec]
    have harith : pos + 24 + 24 * cat.length = pos + 24 * (cat.length + 1) := by omega
    simp [harith]

theorem nameBlockBytes_cons (e : Entry) (es : List Entry) :
    nameBlockBytes (e :: es) = entryName e ++ [0] ++ nameBlockBytes es := rfl

theorem payloadBytes_cons (e : Entry) (es : List Entry) :
    payloadBytes (e :: es) = entryContents e ++ payloadBytes es := rfl

theorem catalogOf_length : ∀ (es : List Entry) (cursor nameOff : Nat),
    (catalogOf cursor nameOff es).length = es.length
  | [], _, _ => rfl
  | .dir n :: rest, cursor, nameOff => by
    simp [catalogOf, catalogOf_length rest]
  | .file p c :: rest, cursor, nameOff => by
    simp [catalogOf, catalogOf_length rest]

theorem catalogOf_bounds : ∀ {es : List Entry} {cursor nameOff : Nat} {it : RItem},
    it ∈ catalogOf cursor nameOff es →
      it.location.file_name_offset + 1 ≤ nameOff + (nameBlockBytes es).length ∧
      it.location.data_offset ≤ cursor + (payloadBytes es).length ∧
      it.location.data_size ≤ (payloadBytes es).length ∧
      it.location.data_offset + it.location.data_size ≤ cursor + (payloadBytes es).length := by
  intro es
  induction es with
  | nil => intro cursor nameOff it hit; simp [catalogOf] at hit
  | cons e rest ih =>
    intro cursor nameOff it hit
    cases e with
    | dir n =>
      rw [catalogOf] at hit
      cases hit with
      | head =>
        refine ⟨?_, ?_, ?_, ?_⟩ <;>
          (simp [nameBlockBytes_cons, payloadBytes_cons, entryName, entryContents,
            List.length_append]; try omega)
      | tail _ hmem =>
        have hth := ih hmem
        simp only [nameBlockBytes_cons, payloadBytes_cons, entryName, entryContents,
          List.length_append] at hth ⊢
        simp at hth ⊢
        omega
    | file p c =>
      rw [catalogOf] at hit
      cases hit with
      | head =>
        refine ⟨?_, ?_, ?_, ?_⟩ <;>
          (simp [nameBlockBytes_cons, payloadBytes_cons, entryName, entryContents,
            List.length_append]; try omega)
      | tail _ hmem =>
        have hth := ih hmem
        simp only [nameBlockBytes_cons, payloadBytes_cons, entryName, entryContents,
          List.length_append] at hth ⊢
        simp at hth ⊢
        omega

theorem spanUntilZero_append {n : List Nat} (hz : 0 ∉ n) (X : List Nat) :
    spanUntilZero (n ++ 0 :: X) = n ++ [0] := by
  induction n with
  | nil => simp [spanUntilZero]
  | cons b rest ih =>
    have hb : b ≠ 0 := fun he => hz (he ▸ List.mem_cons_self b rest)
    have hz2 : 0 ∉ rest := fun hm => hz (List.mem_cons_of_mem b hm)
    simp [spanUntilZero, hb, ih hz2]

theorem stripTrailingZero_append : ∀ (n : List Nat), stripTrailingZero (n ++ [0]) = n
  | [] => by simp [stripTrailingZero]
  | [b] => by simp [stripTrailingZero]
  | b :: c :: rest => by
    have ih := stripTrailingZero_append (c :: rest)
    show stripTrailingZero (b :: (c :: rest ++ [0])) = b :: c :: rest
    have hred : stripTrailingZero (b :: (c :: rest ++ [0])) =
        b :: stripTrailingZero (c :: rest ++ [0]) := rfl
    rw [hred, ih]

theorem readItemName_eq {bytes : List Nat} {fnbs fnbl nameOff : Nat} {nm restAll : List Nat}
    (hblen : bytes.length < 2 ^ 64)
    (hfb : fnbs + fnbl ≤ bytes.length)
    (hdrop : bytes.drop (fnbs + nameOff) = nm ++ 0 :: restAll)
    (hfit : nameOff + (nm.length + 1) ≤ fnbl)
    (hn256 : ∀ b ∈ nm, b < 256) (hn0 : 0 ∉ nm)
    (dOff dSz : Nat) :
    readItemName bytes fnbs fnbl ⟨nameOff, dOff, dSz⟩ = .ok nm := by
  have hfnplt : fnbs + nameOff < 2 ^ 64 := by omega
  have hspan : readUntilZero bytes (fnbs + nameOff) = nm ++ [0] := by
    rw [readUntilZero, hdrop, List.map_append, map_mod_of_lt hn256]
    show spanUntilZero (nm ++ ((0 % 256 : Nat) :: restAll.map (· % 256))) = _
    rw [show (0 % 256 : Nat) = 0 from rfl]
    exact spanUntilZero_append hn0 _
  rw [readItemName]
  simp only
  rw [show (nameOff + fnbs) % 2 ^ 64 = fnbs + nameOff from by
    rw [Nat.add_comm nameOff fnbs]; exact Nat.mod_eq_of_lt hfnplt]
  rw [hspan]
  rw [if_neg (by simp)]
  rw [if_neg ?hbound]
  · rw [stripTrailingZero_append]
  case hbound =>
    rw [Nat.mod_eq_of_lt (by omega : fnbs + fnbl < 2 ^ 64)]
    have hlen0 : (nm ++ [0]).length = nm.length + 1 := by simp
    rw [hlen0]
    rw [Nat.mod_eq_of_lt (by omega : fnbs + nameOff + (nm.length + 1) < 2 ^ 64)]
    omega

theorem readItems_eq {bytes : List Nat} {fnbs fnbl : Nat}
    (hfb : fnbs + fnbl ≤ bytes.length) (hblen : bytes.length < 2 ^ 64) :
    ∀ {es : List Entry} {cursor nameOff : Nat} {rest : List Nat},
      bytes.drop (fnbs + nameOff) = nameBlockBytes es ++ rest →
      nameOff + (nameBlockBytes es).length ≤ fnbl →
      (∀ e ∈ es, ∀ b ∈ entryName e, b < 256 ∧ b ≠ 0) →
      readItems bytes fnbs fnbl ((catalogOf cursor nameOff es).map (·.location)) =
        .ok (catalogOf cursor nameOff es) := by
  intro es
  induction es with
  | nil =>
    intro cursor nameOff rest hdrop hfit hgood
    simp [catalogOf, readItems]
  | cons e es ih =>
    intro cursor nameOff rest hdrop hfit hgood
    have hname := hgood e (List.mem_cons_self e es)
    have hn256 : ∀ b ∈ entryName e, b < 256 := fun b hb => (hname b hb).1
    have hn0 : 0 ∉ entryName e := fun hb => (hname 0 hb).2 rfl
    rw [nameBlockBytes_cons] at hdrop hfit
    have hdrop2 : bytes.drop (fnbs + nameOff) =
        entryName e ++ 0 :: (nameBlockBytes es ++ rest) := by
      rw [hdrop]
      simp [List.append_assoc]
    have hfit1 : nameOff + ((entryName e).length + 1) ≤ fnbl := by
      simp [List.length_append] at hfit
      omega
    have hstep := readItemName_eq hblen hfb hdrop2 hfit1 hn256 hn0
    have hdrop2b : bytes.drop (fnbs + nameOff) =
        (entryName e ++ [0]) ++ (nameBlockBytes es ++ rest) := by
      rw [hdrop2]
      simp [List.append_assoc]
    have hdrop3 : bytes.drop (fnbs + (nameOff + (entryName e).length + 1)) =
        nameBlockBytes es ++ rest := by
      have hdc := drop_chunk hdrop2b
      have hlen0 : (entryName e ++ [0]).length = (entryName e).length + 1 := by simp
      rw [hlen0] at hdc
      rw [show fnbs + (nameOff + (entryName e).length + 1) =
        fnbs + nameOff + ((entryName e).length + 1) from by omega]
      exact hdc
    have hfit3 : (nameOff + (entryName e).length + 1) + (nameBlockBytes es).length ≤ fnbl := by
      simp [List.length_append] at hfit
      omega
    have hgood2 : ∀ x ∈ es, ∀ b ∈ entryName x, b < 256 ∧ b ≠ 0 :=
      fun x hx => hgood x (List.mem_cons_of_mem e hx)
    cases e with
    | dir n =>
      simp only [entryName] at hstep hdrop3 hfit3
      have hrec := @ih cursor (nameOff + n.length + 1) rest hdrop3 hfit3 hgood2
      rw [catalogOf]
      simp only [List.map_cons]
      rw [readItems]
      rw [hstep 0 0, hrec]
    | file p c =>
      simp only [entryName] at hstep hdrop3 hfit3
      have hrec := @ih (cursor + c.length) (nameOff + p.length + 1) rest hdrop3 hfit3 hgood2
      rw [catalogOf]
      simp only [List.map_cons]
      rw [readItems]
      rw [hstep cursor c.length, hrec]



theorem catalogOf_filter_files : ∀ {es : List Entry},
    (∀ p c, Entry.file p c ∈ es → c ≠ []) →
    ∀ {cursor nameOff : Nat},
      ((catalogOf cursor nameOff es).filter (fun it => it.is_file)).map
        (fun it => (it.path_bytes, it.location.data_offset, it.location.data_size)) =
      fileLocList cursor (fileEntries es) := by
  intro es
  induction es with
  | nil => intro hne cursor nameOff; rfl
  | cons e es ih =>
    intro hne cursor nameOff
    have hne2 : ∀ p c, Entry.file p c ∈ es → c ≠ [] :=
      fun p c hm => hne p c (List.mem_cons_of_mem e hm)
    cases e with
    | dir n =>
      rw [catalogOf]
      have hdir : (RItem.is_file ⟨n, ⟨nameOff, 0, 0⟩⟩) = false := by
        simp [RItem.is_file]
      rw [List.filter_cons]
      simp only [hdir]
      rw [fileEntries]
      exact ih hne2
    | file p c =>
      have hcne : c ≠ [] := hne p c (List.mem_cons_self _ _)
      have hfile : (RItem.is_file ⟨p, ⟨nameOff, cursor, c.length⟩⟩) = true := by
        simpa [RItem.is_file] using hcne
      rw [catalogOf]
      rw [List.filter_cons]
      simp only [hfile]
      rw [fileEntries, fileLocList]
      simp only [if_true, List.map_cons]
      rw [ih hne2]

theorem fileLocList_offset_ge : ∀ (ps : List (List Nat × List Nat)) (cursor : Nat),
    ∀ t ∈ fileLocList cursor ps, cursor ≤ t.2.1
  | [], _ => by intro t ht; simp [fileLocList] at ht
  | (p, c) :: ps, cursor => by
    intro t ht
    rw [fileLocList] at ht
    cases ht with
    | head => exact Nat.le_refl _
    | tail _ hm =>
      have := fileLocList_offset_ge ps (cursor + c.length) t hm
      omega

theorem fileLocList_sorted : ∀ (ps : List (List Nat × List Nat)) (cursor : Nat),
    (fileLocList cursor ps).Pairwise (fun a b => a.2.1 ≤ b.2.1)
  | [], _ => List.Pairwise.nil
  | (p, c) :: ps, cursor => by
    rw [fileLocList]
    rw [List.pairwise_cons]
    constructor
    · intro t ht
      show cursor ≤ t.2.1
      have := fileLocList_offset_ge ps (cursor + c.length) t ht
      omega
    · exact fileLocList_sorted ps (cursor + c.length)

theorem checkOverlap_of_consecutive :
    ∀ (l : List RItem) (ps : List (List Nat × List Nat)) (cursor : Nat),
      l.map (fun it => (it.path_bytes, it.location.data_offset, it.location.data_size)) =
        fileLocList cursor ps →
      (∀ it ∈ l, it.location.data_offset + it.location.data_size < 2 ^ 64) →
      checkOverlap l = .ok ()
  | [], _, _ => fun _ _ => rfl
  | [a], _, _ => fun _ _ => rfl
  | a :: b :: rest, ps, cursor => fun hmap hb => by
    cases ps with
    | nil => simp [fileLocList] at hmap
    | cons pc ps =>
      obtain ⟨p, c⟩ := pc
      rw [fileLocList, List.map_cons] at hmap
      have ha := List.head_eq_of_cons_eq hmap
      have htail := List.tail_eq_of_cons_eq hmap
      have haoff : a.location.data_offset = cursor := congrArg (fun t => t.2.1) ha
      have hasz : a.location.data_size = c.length := congrArg (fun t => t.2.2) ha
      have hboff : b.location.data_offset = cursor + c.length := by
        cases ps with
        | nil => simp [fileLocList] at htail
        | cons pc2 ps2 =>
          obtain ⟨p2, c2⟩ := pc2
          rw [fileLocList, List.map_cons] at htail
          exact congrArg (fun t => t.2.1) (List.head_eq_of_cons_eq htail)
      have hend : a.location.data_end = cursor + c.length := by
        rw [Location.data_end, haoff, hasz]
        have := hb a (List.mem_cons_self _ _)
        rw [haoff, hasz] at this
        exact Nat.mod_eq_of_lt this
      rw [checkOverlap]
      rw [if_neg (by rw [hend, hboff]; omega)]
      exact checkOverlap_of_consecutive (b :: rest) ps (cursor + c.length) htail
        (fun it hm => hb it (List.mem_cons_of_mem a hm))



theorem fileEntries_append : ∀ (a b : List Entry),
    fileEntries (a ++ b) = fileEntries a ++ fileEntries b
  | [], _ => rfl
  | .dir n :: a, b => by
    simp only [List.cons_append]
    rw [fileEntries, fileEntries, fileEntries_append a b]
  | .file p c :: a, b => by
    simp only [List.cons_append]
    rw [fileEntries, fileEntries, fileEntries_append a b]
    rfl

theorem fileEntries_map_file : ∀ (l : List WItem),
    fileEntries (l.map (fun it => Entry.file it.path_os it.contents)) =
      l.map (fun it => (it.path_os, it.contents))
  | [] => rfl
  | it :: l => by
    simp only [List.map_cons]
    rw [fileEntries, fileEntries_map_file l]

theorem bankEntries_cons (items : List WItem) (k : ItemKind) (ks : List ItemKind) :
    bankEntries items (k :: ks) =
      (match k.directory with
       | some dir => [Entry.dir (strBytes dir)]
       | none => []) ++
      ((items.filter (fun it => it.kind = k)).map (fun it => Entry.file it.path_os it.contents) ++
        bankEntries items ks) := by
  rw [bankEntries, List.foldr_cons, ← bankEntries, List.append_assoc]

theorem mem_bankEntries {items : List WItem} {e : Entry} : ∀ {kinds : List ItemKind},
    e ∈ bankEntries items kinds →
    (∃ k ∈ kinds, ∃ d, k.directory = some d ∧ e = .dir (strBytes d)) ∨
    (∃ it ∈ items, e = .file it.path_os it.contents) := by
  intro kinds
  induction kinds with
  | nil => intro he; simp [bankEntries] at he
  | cons k ks ih =>
    intro he
    rw [bankEntries_cons] at he
    rw [List.mem_append, List.mem_append] at he
    rcases he with hdir | hfile | hrest
    · left
      cases hd : k.directory with
      | none => rw [hd] at hdir; simp at hdir
      | some d =>
        rw [hd] at hdir
        simp at hdir
        exact ⟨k, List.mem_cons_self k ks, d, hd, hdir⟩
    · right
      rw [List.mem_map] at hfile
      obtain ⟨it, hit, he⟩ := hfile
      exact ⟨it, List.mem_of_mem_filter hit, he.symm⟩
    · rcases ih hrest with ⟨k2, hk2, d, hd, he⟩ | h
      · exact Or.inl ⟨k2, List.mem_cons_of_mem k hk2, d, hd, he⟩
      · exact Or.inr h

theorem directory_bytes_good : ∀ (k : ItemKind) (d : String), k.directory = some d →
    ∀ b ∈ strBytes d, b < 256 ∧ b ≠ 0 := by
  intro k
  cases k <;> intro d hd <;>
    simp [ItemKind.directory, ItemKind.extensions] at hd <;> subst hd <;> decide

theorem sum_ite_filter (f : WItem → Nat) (k : ItemKind) : ∀ (l : List WItem),
    (l.map (fun it => if it.kind = k then f it else 0)).sum =
      ((l.filter (fun it => it.kind = k)).map f).sum
  | [] => rfl
  | it :: l => by
    by_cases h : it.kind = k <;>
      simp [List.filter_cons, h, sum_ite_filter f k l]

theorem nameBlockBytes_append (a b : List Entry) :
    nameBlockBytes (a ++ b) = nameBlockBytes a ++ nameBlockBytes b := by
  simp [nameBlockBytes, List.map_append, flat_append]

theorem payloadBytes_append (a b : List Entry) :
    payloadBytes (a ++ b) = payloadBytes a ++ payloadBytes b := by
  simp [payloadBytes, List.map_append, flat_append]

theorem nameBlock_map_file_length : ∀ (l : List WItem),
    (nameBlockBytes (l.map (fun it => Entry.file it.path_os it.contents))).length =
      (l.map (fun it => it.path_os.length + 1)).sum
  | [] => rfl
  | it :: l => by
    simp only [List.map_cons, nameBlockBytes_cons, entryName, List.length_append]
    rw [nameBlock_map_file_length l]
    simp [entryName]

theorem fileNameBlockLength_eq (items : List WItem) : ∀ (kinds : List ItemKind),
    fileNameBlockLength items kinds = (nameBlockBytes (bankEntries items kinds)).length
  | [] => rfl
  | k :: ks => by
    have hks := fileNameBlockLength_eq items ks
    have hsum := sum_ite_filter (fun it => it.path_os.length + 1) k items
    have hmap := nameBlock_map_file_length (items.filter (fun it => it.kind = k))
    have hL : fileNameBlockLength items (k :: ks) =
        ((match k.directory with
          | some dir => (strBytes dir).length + 1
          | none => 0) +
         (items.map (fun it => if it.kind = k then it.path_os.length + 1 else 0)).sum) +
        fileNameBlockLength items ks := by
      rw [fileNameBlockLength, fileNameBlockLength]
      simp [List.map_cons, List.sum_cons]
    rw [hL, bankEntries_cons, nameBlockBytes_append, nameBlockBytes_append,
      List.length_append, List.length_append, ← hks, hsum, ← hmap]
    cases hd : k.directory with
    | none =>
      simp [nameBlockBytes, flat]
    | some d =>
      have hone : (nameBlockBytes [Entry.dir (strBytes d)]).length = (strBytes d).length + 1 := by
        simp [nameBlockBytes, flat, entryName]
      simp only []
      rw [hone]
      omega

theorem locTableBytes_length : ∀ (cat : List RItem),
    (locTableBytes cat).length = 24 * cat.length
  | [] => rfl
  | it :: cat => by
    rw [locTableBytes_cons]
    simp [List.length_append, u64le_length, locTableBytes_length cat]
    omega



theorem allDecl_complete : ∀ (k : ItemKind), k ∈ ItemKind.allDecl := by
  intro k
  cases k <;> decide

theorem allDecl_nodup : ItemKind.allDecl.Nodup := by decide

theorem presentKinds_nodup (items : List WItem) : (presentKinds items).Nodup :=
  List.Nodup.filter _ allDecl_nodup

theorem mem_presentKinds {items : List WItem} {it : WItem} (hit : it ∈ items) :
    it.kind ∈ presentKinds items := by
  rw [presentKinds, List.mem_filter]
  refine ⟨allDecl_complete it.kind, ?_⟩
  rw [List.any_eq_true]
  exact ⟨it, hit, by simp⟩

theorem kindsFlatFilter_nil (items : List WItem) : kindsFlatFilter [] items = [] := rfl

theorem kindsFlatFilter_cons (k : ItemKind) (ks : List ItemKind) (items : List WItem) :
    kindsFlatFilter (k :: ks) items =
      items.filter (fun it => it.kind = k) ++ kindsFlatFilter ks items := rfl

theorem kindsFlatFilter_congr : ∀ (ks : List ItemKind) (A B : List WItem),
    (∀ k ∈ ks, A.filter (fun it => it.kind = k) = B.filter (fun it => it.kind = k)) →
    kindsFlatFilter ks A = kindsFlatFilter ks B
  | [], _, _ => fun _ => rfl
  | k :: ks, A, B => fun h => by
    rw [kindsFlatFilter_cons, kindsFlatFilter_cons,
      h k (List.mem_cons_self k ks),
      kindsFlatFilter_congr ks A B (fun k2 hk2 => h k2 (List.mem_cons_of_mem k hk2))]

theorem kindsFlatFilter_perm : ∀ (ks : List ItemKind), ks.Nodup → ∀ (items : List WItem),
    (∀ it ∈ items, it.kind ∈ ks) → (kindsFlatFilter ks items).Perm items
  | [], _ => by
    intro items hcov
    have : items = [] := by
      cases items with
      | nil => rfl
      | cons it l => exact absurd (hcov it (List.mem_cons_self it l)) (by simp)
    rw [this]
    exact List.Perm.refl _
  | k :: ks, hnd => by
    intro items hcov
    have hknot : k ∉ ks := (List.nodup_cons.mp hnd).1
    have hnd2 : ks.Nodup := (List.nodup_cons.mp hnd).2
    rw [kindsFlatFilter_cons]
    have hfilters : ∀ k2 ∈ ks, items.filter (fun it => it.kind = k2) =
        (items.filter (fun it => ¬it.kind = k)).filter (fun it => it.kind = k2) := by
      intro k2 hk2
      rw [List.filter_filter]
      apply List.filter_congr
      intro it hit
      by_cases he : it.kind = k2
      · have hk2ne : ¬k2 = k := fun hh => hknot (hh ▸ hk2)
        simp [he, hk2ne]
      · simp [he]
    rw [kindsFlatFilter_congr ks items (items.filter (fun it => ¬it.kind = k)) hfilters]
    have hcov2 : ∀ it ∈ items.filter (fun it => ¬it.kind = k), it.kind ∈ ks := by
      intro it hit
      rw [List.mem_filter] at hit
      have := hcov it hit.1
      rw [List.mem_cons] at this
      rcases this with hh | hh
      · exact absurd hh (by simpa using hit.2)
      · exact hh
    have hperm2 := kindsFlatFilter_perm ks hnd2 (items.filter (fun it => ¬it.kind = k)) hcov2
    have hsplit : (items.filter (fun it => it.kind = k) ++
        items.filter (fun it => ¬it.kind = k)).Perm items := by
      have := List.filter_append_perm (fun it => decide (it.kind = k)) items
      simpa using this
    exact List.Perm.trans (List.Perm.append_left _ hperm2) hsplit

theorem groupedItems_perm (items : List WItem) : (groupedItems items).Perm items :=
  kindsFlatFilter_perm (presentKinds items) (presentKinds_nodup items) items
    (fun _ hit => mem_presentKinds hit)

theorem bankEntries_length (items : List WItem) : ∀ (ks : List ItemKind),
    (bankEntries items ks).length =
      (ks.filterMap ItemKind.directory).length + (kindsFlatFilter ks items).length
  | [] => rfl
  | k :: ks => by
    rw [bankEntries_cons, kindsFlatFilter_cons]
    simp only [List.length_append, List.filterMap_cons]
    rw [bankEntries_length items ks]
    cases hd : k.directory with
    | none =>
      simp
      omega
    | some d =>
      simp
      omega

theorem locationCount_eq (items : List WItem) :
    locationCount items = (bankEntries items (presentKinds items)).length := by
  rw [locationCount, bankEntries_length items (presentKinds items)]
  have hg : (kindsFlatFilter (presentKinds items) items).length = items.length :=
    List.Perm.length_eq (groupedItems_perm items)
  omega

theorem bankBytes_length (items : List WItem) :
    (bankBytes items).length =
      dataOffset0 items + (payloadBytes (bankEntries items (presentKinds items))).length := by
  rw [bankBytes, dataOffset0]
  simp only [List.length_append, u64le_length, locTableBytes_length]
  rw [bankCatalog, catalogOf_length, ← locationCount_eq, ← fileNameBlockLength_eq]
  rw [locationBlockStart]
  have hf : FILE_ID.length = 4 := rfl
  have hc : CORRUPTION_CHECK_BYTES.length = 4 := rfl
  have hv : FORMAT_VERSION.length = 8 := rfl
  rw [hf, hc, hv]
  omega



theorem bankEntries_names_good {items : List WItem}
    (hp : ∀ it ∈ items, ∀ b ∈ it.path_os, b < 256 ∧ b ≠ 0) {kinds : List ItemKind} :
    ∀ e ∈ bankEntries items kinds, ∀ b ∈ entryName e, b < 256 ∧ b ≠ 0 := by
  intro e he
  rcases mem_bankEntries he with ⟨k, _, d, hd, hedir⟩ | ⟨it, hit, hefile⟩
  · rw [hedir]
    exact directory_bytes_good k d hd
  · rw [hefile]
    exact hp it hit

theorem bankEntries_contents_good {items : List WItem}
    (hc : ∀ it ∈ items, it.contents ≠ [] ∧ ∀ b ∈ it.contents, b < 256) {kinds : List ItemKind} :
    ∀ p c, Entry.file p c ∈ bankEntries items kinds → c ≠ [] := by
  intro p c hm
  rcases mem_bankEntries hm with ⟨k, _, d, hd, hedir⟩ | ⟨it, hit, hefile⟩
  · cases hedir
  · cases hefile
    exact (hc it hit).1

theorem bank_roundtrip (items : List WItem)
    (hp : ∀ it ∈ items, ∀ b ∈ it.path_os, b < 256 ∧ b ≠ 0)
    (hc : ∀ it ∈ items, it.contents ≠ [] ∧ ∀ b ∈ it.contents, b < 256)
    (hlen : (bankBytes items).length < 2 ^ 64) :
    bankReaderNew (bankBytes items) = .ok (bankCatalog items) := by
  have hBL := bankBytes_length items
  have hDO : dataOffset0 items = 24 + locationCount items * 24 + 8 +
      fileNameBlockLength items (presentKinds items) := by
    rw [dataOffset0, locationBlockStart]
  have hNB : fileNameBlockLength items (presentKinds items) =
      (nameBlockBytes (bankEntries items (presentKinds items))).length :=
    fileNameBlockLength_eq items (presentKinds items)
  have hlcc : locationCount items = (bankCatalog items).length := by
    rw [bankCatalog, catalogOf_length, ← locationCount_eq]
  -- structure of the stream
  have hB0 : bankBytes items = FILE_ID ++ (CORRUPTION_CHECK_BYTES ++ (FORMAT_VERSION ++
      (u64le (locationCount items) ++ (locTableBytes (bankCatalog items) ++
      (u64le (fileNameBlockLength items (presentKinds items)) ++
      (nameBlockBytes (bankEntries items (presentKinds items)) ++
       payloadBytes (bankEntries items (presentKinds items)))))))) := by
    rw [bankBytes]
    simp [List.append_assoc]
  have hd0 : (bankBytes items).drop 0 = FILE_ID ++ (CORRUPTION_CHECK_BYTES ++ (FORMAT_VERSION ++
      (u64le (locationCount items) ++ (locTableBytes (bankCatalog items) ++
      (u64le (fileNameBlockLength items (presentKinds items)) ++
      (nameBlockBytes (bankEntries items (presentKinds items)) ++
       payloadBytes (bankEntries items (presentKinds items)))))))) := by
    rw [List.drop_zero]
    exact hB0
  have hd4 : (bankBytes items).drop 4 = CORRUPTION_CHECK_BYTES ++ (FORMAT_VERSION ++
      (u64le (locationCount items) ++ (locTableBytes (bankCatalog items) ++
      (u64le (fileNameBlockLength items (presentKinds items)) ++
      (nameBlockBytes (bankEntries items (presentKinds items)) ++
       payloadBytes (bankEntries items (presentKinds items))))))) := by
    have h := drop_chunk hd0
    rw [show (0 : Nat) + FILE_ID.length = 4 from rfl] at h
    exact h
  have hd8 : (bankBytes items).drop 8 = FORMAT_VERSION ++
      (u64le (locationCount items) ++ (locTableBytes (bankCatalog items) ++
      (u64le (fileNameBlockLength items (presentKinds items)) ++
      (nameBlockBytes (bankEntries items (presentKinds items)) ++
       payloadBytes (bankEntries items (presentKinds items)))))) := by
    have h := drop_chunk hd4
    rw [show (4 : Nat) + CORRUPTION_CHECK_BYTES.length = 8 from rfl] at h
    exact h
  have hd16 : (bankBytes items).drop 16 =
      u64le (locationCount items) ++ (locTableBytes (bankCatalog items) ++
      (u64le (fileNameBlockLength items (presentKinds items)) ++
      (nameBlockBytes (bankEntries items (presentKinds items)) ++
       payloadBytes (bankEntries items (presentKinds items))))) := by
    have h := drop_chunk hd8
    rw [show (8 : Nat) + FORMAT_VERSION.length = 16 from rfl] at h
    exact h
  have hd24 : (bankBytes items).drop 24 =
      locTableBytes (bankCatalog items) ++
      (u64le (fileNameBlockLength items (presentKinds items)) ++
      (nameBlockBytes (bankEntries items (presentKinds items)) ++
       payloadBytes (bankEntries items (presentKinds items)))) := by
    have h := drop_chunk hd16
    rw [show (16 : Nat) + (u64le (locationCount items)).length = 24 from by
      rw [u64le_length]] at h
    exact h
  have hdLT : (bankBytes items).drop (24 + 24 * locationCount items) =
      u64le (fileNameBlockLength items (presentKinds items)) ++
      (nameBlockBytes (bankEntries items (presentKinds items)) ++
       payloadBytes (bankEntries items (presentKinds items))) := by
    have h := drop_chunk hd24
    rw [locTableBytes_length, ← hlcc] at h
    rw [show 24 + (24 : Nat) * locationCount items =
      24 + 24 * locationCount items from rfl]
    exact h
  have hdNB : (bankBytes items).drop (24 + 24 * locationCount items + 8 + 0) =
      nameBlockBytes (bankEntries items (presentKinds items)) ++
       payloadBytes (bankEntries items (presentKinds items)) := by
    have h := drop_chunk hdLT
    rw [u64le_length] at h
    rw [show 24 + 24 * locationCount items + 8 + 0 =
      24 + 24 * locationCount items + 8 from by omega]
    exact h
  -- elementary size facts
  have hlcb : locationCount items < 2 ^ 64 := by
    have h24 : 24 + locationCount items * 24 + 8 +
        fileNameBlockLength items (presentKinds items) +
        (payloadBytes (bankEntries items (presentKinds items))).length =
        (bankBytes items).length := by
      rw [hBL, hDO]
    omega
  have hfnb : fileNameBlockLength items (presentKinds items) < 2 ^ 64 := by
    have h24 : 24 + locationCount items * 24 + 8 +
        fileNameBlockLength items (presentKinds items) +
        (payloadBytes (bankEntries items (presentKinds items))).length =
        (bankBytes items).length := by
      rw [hBL, hDO]
    omega
  -- reads
  have e1 : readExactAt (bankBytes items) 0 4 = some FILE_ID := by
    have h := readExactAt_eq hd0 (by decide)
    rw [show FILE_ID.length = 4 from rfl] at h
    rw [h, show FILE_ID.map (· % 256) = FILE_ID from by decide]
  have e2 : readExactAt (bankBytes items) 4 4 = some CORRUPTION_CHECK_BYTES := by
    have h := readExactAt_eq hd4 (by decide)
    rw [show CORRUPTION_CHECK_BYTES.length = 4 from rfl] at h
    rw [h, show CORRUPTION_CHECK_BYTES.map (· % 256) = CORRUPTION_CHECK_BYTES from by decide]
  have e3 : readExactAt (bankBytes items) 8 8 = some FORMAT_VERSION := by
    have h := readExactAt_eq hd8 (by decide)
    rw [show FORMAT_VERSION.length = 8 from rfl] at h
    rw [h, show FORMAT_VERSION.map (· % 256) = FORMAT_VERSION from by decide]
  have e4 : readU64At (bankBytes items) 16 = some (locationCount items) := by
    rw [readU64At_eq hd16, Nat.mod_eq_of_lt hlcb]
  have hcatbounds : ∀ it ∈ bankCatalog items,
      it.location.file_name_offset < 2 ^ 64 ∧
      it.location.data_offset < 2 ^ 64 ∧ it.location.data_size < 2 ^ 64 := by
    intro it hit
    rw [bankCatalog] at hit
    have hbd := catalogOf_bounds hit
    rw [← hNB] at hbd
    have h24 : dataOffset0 items +
        (payloadBytes (bankEntries items (presentKinds items))).length =
        (bankBytes items).length := hBL.symm
    omega
  have e5 : parseLocations (bankBytes items) 24 (locationCount items) =
      some ((bankCatalog items).map (·.location), 24 + 24 * locationCount items) := by
    have h := parseLocations_eq hd24 hcatbounds
    rw [← hlcc] at h
    exact h
  have e6 : readU64At (bankBytes items) (24 + 24 * locationCount items) =
      some (fileNameBlockLength items (presentKinds items)) := by
    rw [readU64At_eq hdLT, Nat.mod_eq_of_lt hfnb]
  have hfb : (24 + 24 * locationCount items + 8) +
      fileNameBlockLength items (presentKinds items) ≤ (bankBytes items).length := by
    have h24 : 24 + locationCount items * 24 + 8 +
        fileNameBlockLength items (presentKinds items) +
        (payloadBytes (bankEntries items (presentKinds items))).length =
        (bankBytes items).length := by
      rw [hBL, hDO]
    omega
  have e7 : readItems (bankBytes items) (24 + 24 * locationCount items + 8)
      (fileNameBlockLength items (presentKinds items))
      ((bankCatalog items).map (·.location)) = .ok (bankCatalog items) := by
    rw [bankCatalog]
    exact readItems_eq hfb hlen hdNB (by rw [← hNB]; omega)
      (bankEntries_names_good hp)
  have hne : ∀ p c, Entry.file p c ∈ bankEntries items (presentKinds items) → c ≠ [] :=
    @bankEntries_contents_good items hc (presentKinds items)
  have hfiles : ((bankCatalog items).filter (fun it => it.is_file)).map
      (fun it => (it.path_bytes, it.location.data_offset, it.location.data_size)) =
      fileLocList (dataOffset0 items) (fileEntries (bankEntries items (presentKinds items))) := by
    rw [bankCatalog]
    exact catalogOf_filter_files hne
  have hsorted : ((bankCatalog items).filter (fun it => it.is_file)).Pairwise byOffset := by
    have hp0 := fileLocList_sorted (fileEntries (bankEntries items (presentKinds items)))
      (dataOffset0 items)
    rw [← hfiles] at hp0
    have hp1 := List.pairwise_map.mp hp0
    exact hp1.imp (fun h => h)
  have hsfi : sortedFileItems (bankCatalog items) =
      (bankCatalog items).filter (fun it => it.is_file) := by
    rw [sortedFileItems]
    exact List.Sorted.insertionSort_eq hsorted
  have hboundf : ∀ it ∈ (bankCatalog items).filter (fun it => it.is_file),
      it.location.data_offset + it.location.data_size < 2 ^ 64 := by
    intro it hit
    have hmem := List.mem_of_mem_filter hit
    rw [bankCatalog] at hmem
    have hbd := catalogOf_bounds hmem
    have h24 : dataOffset0 items +
        (payloadBytes (bankEntries items (presentKinds items))).length =
        (bankBytes items).length := hBL.symm
    omega
  have e8 : checkOverlap (sortedFileItems (bankCatalog items)) = .ok () := by
    rw [hsfi]
    exact checkOverlap_of_consecutive _ _ _ hfiles hboundf
  unfold bankReaderNew
  simp only [e1, e2, e3, e4, e5, e6, e7, e8]
  simp



theorem fileEntries_dirPart (k : ItemKind) :
    fileEntries (match k.directory with
      | some dir => [Entry.dir (strBytes dir)]
      | none => []) = [] := by
  cases k.directory with
  | none => rfl
  | some d => rfl

theorem bankEntries_fileEntries (items : List WItem) : ∀ (ks : List ItemKind),
    fileEntries (bankEntries items ks) =
      (kindsFlatFilter ks items).map (fun it => (it.path_os, it.contents))
  | [] => rfl
  | k :: ks => by
    rw [bankEntries_cons, kindsFlatFilter_cons]
    rw [fileEntries_append, fileEntries_append, fileEntries_dirPart]
    rw [fileEntries_map_file, bankEntries_fileEntries items ks]
    simp [List.map_append]

theorem payloadBytes_fileEntries : ∀ (es : List Entry),
    payloadBytes es = flat ((fileEntries es).map (fun pc => pc.2))
  | [] => rfl
  | .dir n :: es => by
    rw [payloadBytes_cons, fileEntries, payloadBytes_fileEntries es]
    rfl
  | .file p c :: es => by
    rw [payloadBytes_cons, fileEntries, payloadBytes_fileEntries es]
    rfl

theorem fileLocList_fst : ∀ (ps : List (List Nat × List Nat)) (cursor : Nat),
    (fileLocList cursor ps).map (fun t => t.1) = ps.map (fun pc => pc.1)
  | [], _ => rfl
  | (p, c) :: ps, cursor => by
    rw [fileLocList]
    simp only [List.map_cons]
    rw [fileLocList_fst ps (cursor + c.length)]

theorem readExactAt_chunks (bytes : List Nat) :
    ∀ (ps : List (List Nat × List Nat)) (pos : Nat) (rest : List Nat),
      bytes.drop pos = flat (ps.map (fun pc => pc.2)) ++ rest →
      (∀ p c, (p, c) ∈ ps → c ≠ [] ∧ ∀ b ∈ c, b < 256) →
      (fileLocList pos ps).map (fun t => readExactAt bytes t.2.1 t.2.2) =
        ps.map (fun pc => some pc.2)
  | [], _, _ => fun _ _ => rfl
  | (p, c) :: ps, pos, rest => fun hdrop hgood => by
    have hcg := hgood p c (List.mem_cons_self _ _)
    have hdrop1 : bytes.drop pos = c ++ (flat (ps.map (fun pc => pc.2)) ++ rest) := by
      rw [hdrop]
      show flat ((c :: ps.map (fun pc => pc.2))) ++ rest = _
      rw [flat_cons]
      simp [List.append_assoc]
    have hread : readExactAt bytes pos c.length = some c := by
      have h := readExactAt_eq hdrop1 (by
        cases hcl : c with
        | nil => exact absurd hcl hcg.1
        | cons x l => simp)
      rw [h, map_mod_of_lt hcg.2]
    have hdrop2 : bytes.drop (pos + c.length) = flat (ps.map (fun pc => pc.2)) ++ rest :=
      drop_chunk hdrop1
    rw [fileLocList]
    simp only [List.map_cons]
    rw [hread]
    rw [readExactAt_chunks bytes ps (pos + c.length) rest hdrop2
      (fun p2 c2 hm => hgood p2 c2 (List.mem_cons_of_mem _ hm))]

theorem add_unwritten {w : BankWriter} (hw : w.written = false) (kind : ItemKind)
    (fileName contents : List Nat) :
    w.add kind fileName contents =
      ({ w with items := w.items ++
        [{ kind := kind, contents := contents,
           path_os := match kind.directory with
             | some dir => strBytes dir ++ [pathSeparatorByte] ++ fileName
             | none => fileName }] }, .ok ()) := by
  rw [BankWriter.add, if_neg (by rw [hw]; simp)]

theorem add_keeps_unwritten {w : BankWriter} (hw : w.written = false) (kind : ItemKind)
    (fileName contents : List Nat) :
    (w.add kind fileName contents).1.written = false := by
  rw [add_unwritten hw]
  exact hw

theorem addAll_unwritten : ∀ (adds : List (ItemKind × List Nat × List Nat)) (w : BankWriter),
    w.written = false → (addAll w adds).written = false
  | [], _ => fun hw => hw
  | (k, n, c) :: adds, _ => fun hw =>
    addAll_unwritten adds _ (add_keeps_unwritten hw k n c)

theorem addAll_inner : ∀ (adds : List (ItemKind × List Nat × List Nat)) (w : BankWriter),
    w.written = false → (addAll w adds).inner = w.inner
  | [], _ => fun _ => rfl
  | (k, n, c) :: adds, w => fun hw => by
    rw [addAll, addAll_inner adds _ (add_keeps_unwritten hw k n c), add_unwritten hw]

theorem mem_addAll_items : ∀ (adds : List (ItemKind × List Nat × List Nat)) (w : BankWriter),
    w.written = false → ∀ it ∈ (addAll w adds).items,
      it ∈ w.items ∨ ∃ a ∈ adds, it =
        { kind := a.1, contents := a.2.2,
          path_os := match a.1.directory with
            | some dir => strBytes dir ++ [pathSeparatorByte] ++ a.2.1
            | none => a.2.1 }
  | [], w => fun _ it hit => Or.inl hit
  | (k, n, c) :: adds, w => fun hw it hit => by
    rw [addAll] at hit
    have hrec := mem_addAll_items adds (w.add k n c).1 (add_keeps_unwritten hw k n c) it hit
    rcases hrec with hin | ⟨a, ha, he⟩
    · rw [add_unwritten hw] at hin
      simp only at hin
      rw [List.mem_append] at hin
      rcases hin with hin | hin
      · exact Or.inl hin
      · right
        refine ⟨(k, n, c), List.mem_cons_self _ _, ?_⟩
        simpa using hin
    · exact Or.inr ⟨a, List.mem_cons_of_mem _ ha, he⟩

theorem withMetadata_items {w : BankWriter} (hw : w.written = false) :
    (withMetadata w).items = w.items ∨
    (withMetadata w).items = w.items ++
      [{ kind := .Metadata, contents := serializeMetadata (patchMetadata defaultMetadata),
         path_os := strBytes "index.json" }] := by
  rw [withMetadata]
  by_cases hm : w.items.any (fun it => it.kind = .Metadata)
  · rw [if_pos hm]
    exact Or.inl rfl
  · rw [if_neg hm]
    right
    rw [BankWriter.add_metadata, add_unwritten hw]
    simp only []
    rw [show ItemKind.Metadata.directory = none from rfl]

theorem metadataItem_good :
    (∀ b ∈ strBytes "index.json", b < 256 ∧ b ≠ 0) ∧
    serializeMetadata (patchMetadata defaultMetadata) ≠ [] ∧
    (∀ b ∈ serializeMetadata (patchMetadata defaultMetadata), b < 256) := by
  decide

theorem finalItems_good (adds : List (ItemKind × List Nat × List Nat))
    (hnames : ∀ a ∈ adds, ∀ b ∈ a.2.1, b < 256 ∧ b ≠ 0)
    (hconts : ∀ a ∈ adds, a.2.2 ≠ [] ∧ ∀ b ∈ a.2.2, b < 256) :
    (∀ it ∈ finalItems adds, ∀ b ∈ it.path_os, b < 256 ∧ b ≠ 0) ∧
    (∀ it ∈ finalItems adds, it.contents ≠ [] ∧ ∀ b ∈ it.contents, b < 256) := by
  have hw0 : (BankWriter.new).written = false := rfl
  have hadded : ∀ it ∈ (addAll BankWriter.new adds).items,
      (∀ b ∈ it.path_os, b < 256 ∧ b ≠ 0) ∧
      (it.contents ≠ [] ∧ ∀ b ∈ it.contents, b < 256) := by
    intro it hit
    rcases mem_addAll_items adds BankWriter.new hw0 it hit with hin | ⟨a, ha, he⟩
    · simp [BankWriter.new] at hin
    · subst he
      refine ⟨?_, hconts a ha⟩
      cases hd : a.1.directory with
      | none =>
        simp only [hd]
        exact hnames a ha
      | some d =>
        simp only [hd]
        intro b hb
        rw [List.mem_append, List.mem_append] at hb
        rcases hb with (hb | hb) | hb
        · exact directory_bytes_good a.1 d hd b hb
        · simp at hb
          subst hb
          rw [pathSeparatorByte]
          omega
        · exact hnames a ha b hb
  have hmeta := metadataItem_good
  rcases withMetadata_items (addAll_unwritten adds BankWriter.new hw0) with hsame | happ
  · constructor
    · intro it hit
      rw [finalItems, hsame] at hit
      exact (hadded it hit).1
    · intro it hit
      rw [finalItems, hsame] at hit
      exact (hadded it hit).2
  · constructor
    · intro it hit
      rw [finalItems, happ, List.mem_append] at hit
      rcases hit with hit | hit
      · exact (hadded it hit).1
      · simp at hit
        subst hit
        exact hmeta.1
    · intro it hit
      rw [finalItems, happ, List.mem_append] at hit
      rcases hit with hit | hit
      · exact (hadded it hit).2
      · simp at hit
        subst hit
        exact ⟨hmeta.2.1, hmeta.2.2⟩

theorem write_of_unwritten {w : BankWriter} (hw : w.written = false) :
    w.write = ({ inner := (withMetadata w).inner ++ bankBytes (withMetadata w).items,
                 items := (withMetadata w).items, written := true }, .ok ()) := by
  rw [BankWriter.write, if_neg (by rw [hw]; simp)]

theorem withMetadata_inner {w : BankWriter} (hw : w.written = false) :
    (withMetadata w).inner = w.inner := by
  rw [withMetadata]
  by_cases hm : w.items.any (fun it => it.kind = .Metadata)
  · rw [if_pos hm]
  · rw [if_neg hm, BankWriter.add_metadata, add_unwritten hw]



theorem bankBytes_split (items : List WItem) :
    bankBytes items =
      (FILE_ID ++ CORRUPTION_CHECK_BYTES ++ FORMAT_VERSION ++
        u64le (locationCount items) ++ locTableBytes (bankCatalog items) ++
        u64le (fileNameBlockLength items (presentKinds items)) ++
        nameBlockBytes (bankEntries items (presentKinds items))) ++
      payloadBytes (bankEntries items (presentKinds items)) := by
  rw [bankBytes]

theorem bankBytes_drop_payload (items : List WItem) :
    (bankBytes items).drop (dataOffset0 items) =
      payloadBytes (bankEntries items (presentKinds items)) := by
  rw [bankBytes_split]
  have hl : (FILE_ID ++ CORRUPTION_CHECK_BYTES ++ FORMAT_VERSION ++
      u64le (locationCount items) ++ locTableBytes (bankCatalog items) ++
      u64le (fileNameBlockLength items (presentKinds items)) ++
      nameBlockBytes (bankEntries items (presentKinds items))).length =
      dataOffset0 items := by
    simp only [List.length_append, u64le_length, locTableBytes_length]
    rw [bankCatalog, catalogOf_length, ← locationCount_eq, ← fileNameBlockLength_eq,
      dataOffset0, locationBlockStart]
    have hf : FILE_ID.length = 4 := rfl
    have hcc : CORRUPTION_CHECK_BYTES.length = 4 := rfl
    have hv : FORMAT_VERSION.length = 8 := rfl
    rw [hf, hcc, hv]
    omega
  exact drop_append_eq hl

theorem bankBytes_head16 (items : List WItem) :
    bankBytes items =
      (FILE_ID ++ CORRUPTION_CHECK_BYTES ++ FORMAT_VERSION) ++
      (u64le (locationCount items) ++ (locTableBytes (bankCatalog items) ++
       (u64le (fileNameBlockLength items (presentKinds items)) ++
        (nameBlockBytes (bankEntries items (presentKinds items)) ++
         payloadBytes (bankEntries items (presentKinds items)))))) := by
  rw [bankBytes]
  simp [List.append_assoc]

theorem bankBytes_drop16 (items : List WItem) :
    (bankBytes items).drop 16 =
      u64le (locationCount items) ++ (locTableBytes (bankCatalog items) ++
       (u64le (fileNameBlockLength items (presentKinds items)) ++
        (nameBlockBytes (bankEntries items (presentKinds items)) ++
         payloadBytes (bankEntries items (presentKinds items))))) := by
  rw [bankBytes_head16]
  exact drop_append_eq (by decide)

theorem mem_fileEntries : ∀ {es : List Entry} {p c : List Nat},
    (p, c) ∈ fileEntries es → Entry.file p c ∈ es := by
  intro es
  induction es with
  | nil => intro p c h; simp [fileEntries] at h
  | cons e es ih =>
    intro p c h
    cases e with
    | dir n =>
      rw [fileEntries] at h
      exact List.mem_cons_of_mem _ (ih h)
    | file p2 c2 =>
      rw [fileEntries] at h
      rcases List.mem_cons.mp h with hh | hh
      · cases hh
        exact List.mem_cons_self _ _
      · exact List.mem_cons_of_mem _ (ih hh)

theorem offsetsAdvance_catalogOf : ∀ (es : List Entry) (cursor nameOff : Nat),
    offsetsAdvance cursor es (catalogOf cursor nameOff es) = true
  | [], _, _ => rfl
  | .dir n :: es, cursor, nameOff => by
    rw [catalogOf, offsetsAdvance]
    simp [offsetsAdvance_catalogOf es cursor (nameOff + n.length + 1)]
  | .file p c :: es, cursor, nameOff => by
    rw [catalogOf, offsetsAdvance]
    simp [offsetsAdvance_catalogOf es (cursor + c.length) (nameOff + p.length + 1)]



/-- Claim C6: in the committed output the 64-bit location count field decodes
to (number of items, synthesized metadata included) plus (number of distinct
kinds present that declare a directory); the payload base offset is header
size (24) + location count × 24 + 8 + name-block length; and the emitted
locations satisfy the advancing-offset recurrence (directories at 0/0, each
file at the running cursor, advancing by its payload length) in (kind,
insertion) order. -/
theorem c6_layout (w : BankWriter) (hw : w.written = false)
    (hlc : locationCount (withMetadata w).items < 2 ^ 64) :
    (w.write).1.inner = w.inner ++ bankBytes (withMetadata w).items ∧
    readU64At (bankBytes (withMetadata w).items) 16 =
      some ((withMetadata w).items.length +
        ((presentKinds (withMetadata w).items).filterMap ItemKind.directory).length) ∧
    dataOffset0 (withMetadata w).items =
      24 + locationCount (withMetadata w).items * 24 + 8 +
        fileNameBlockLength (withMetadata w).items (presentKinds (withMetadata w).items) ∧
    offsetsAdvance (dataOffset0 (withMetadata w).items)
      (bankEntries (withMetadata w).items (presentKinds (withMetadata w).items))
      (bankCatalog (withMetadata w).items) = true := by
  refine ⟨?_, ?_, ?_, ?_⟩
  · rw [write_of_unwritten hw, withMetadata_inner hw]
  · rw [readU64At_eq (bankBytes_drop16 (withMetadata w).items),
      Nat.mod_eq_of_lt hlc, locationCount]
  · rw [dataOffset0, locationBlockStart]
  · rw [bankCatalog]
    exact offsetsAdvance_catalogOf _ _ _

/-- Claim C6, witness: the layout facts for the writer that commits only the
synthesized metadata. -/
theorem c6_layout_witness :
    offsetsAdvance (dataOffset0 (withMetadata BankWriter.new).items)
      (bankEntries (withMetadata BankWriter.new).items
        (presentKinds (withMetadata BankWriter.new).items))
      (bankCatalog (withMetadata BankWriter.new).items) = true :=
  (c6_layout BankWriter.new rfl (by decide)).2.2.2

/-- Claim C1, counterexample: the round-trip correspondence fails as
universally stated, on two independent inputs.  First, an item added with
empty contents reads back as a directory entry: after adding one Background
item with empty contents, the opened catalog has exactly one file item (the
synthesized metadata) while two items were written.  Second, an item whose
file name contains an interior NUL byte is truncated on read-back: for
add(Background, "a\x00b", [1]) the commit succeeds and the reader accepts
the stream, but the stored path [97] differs from the writer-computed path
[97, 0, 98], since read_until(0) stops at the interior zero. -/
theorem c1_counterexample :
    (bankReaderNew (((addAll BankWriter.new emptyContentAdds).write).1.inner) =
      .ok (bankCatalog (finalItems emptyContentAdds)) ∧
    (((bankCatalog (finalItems emptyContentAdds)).filter (fun it => it.is_file)).map
      (fun it => it.path_bytes)).length = 1 ∧
    ((groupedItems (finalItems emptyContentAdds)).map (fun it => it.path_os)).length = 2) ∧
    (((addAll BankWriter.new nulNameAdds).write).2 = .ok () ∧
    bankReaderNew (((addAll BankWriter.new nulNameAdds).write).1.inner) =
      .ok [⟨[97], ⟨0, 95, 1⟩⟩, ⟨strBytes "index.json", ⟨4, 96, 100⟩⟩] ∧
    (groupedItems (finalItems nulNameAdds)).map (fun it => it.path_os) =
      [[97, 0, 98], strBytes "index.json"] ∧
    ([(⟨[97], ⟨0, 95, 1⟩⟩ : RItem), ⟨strBytes "index.json", ⟨4, 96, 100⟩⟩].filter
        (fun it => it.is_file)).map (fun it => it.path_bytes) ≠
      (groupedItems (finalItems nulNameAdds)).map (fun it => it.path_os)) := by
  refine ⟨⟨by decide, by decide, by decide⟩, by decide, by decide, by decide, by decide⟩

/-- Claim C1, amended: for every sequence of `add` calls whose file names
are NUL-free bytes and whose contents are nonempty (the machine-level side
conditions: byte values below 256 and a total stream shorter than `2^64`),
committing succeeds, reopening the produced stream succeeds, and the
catalog's file items correspond one-to-one to the written items (synthesized
metadata included) grouped by kind in enumeration order with insertion order
within each kind: the stored paths equal the writer-computed paths and
`read_contents` returns each item's original bytes. -/
theorem c1_roundtrip_amended (adds : List (ItemKind × List Nat × List Nat))
    (hnames : ∀ a ∈ adds, ∀ b ∈ a.2.1, b < 256 ∧ b ≠ 0)
    (hconts : ∀ a ∈ adds, a.2.2 ≠ [] ∧ ∀ b ∈ a.2.2, b < 256)
    (hlen : (bankBytes (finalItems adds)).length < 2 ^ 64) :
    ((addAll BankWriter.new adds).write).2 = .ok () ∧
    bankReaderNew (((addAll BankWriter.new adds).write).1.inner) =
      .ok (bankCatalog (finalItems adds)) ∧
    ((bankCatalog (finalItems adds)).filter (fun it => it.is_file)).map
        (fun it => it.path_bytes) =
      (groupedItems (finalItems adds)).map (fun it => it.path_os) ∧
    ((bankCatalog (finalItems adds)).filter (fun it => it.is_file)).map
        (fun it => readContents (bankBytes (finalItems adds)) it) =
      (groupedItems (finalItems adds)).map (fun it => some it.contents) := by
  have hw0 : (BankWriter.new).written = false := rfl
  have hwa : (addAll BankWriter.new adds).written = false :=
    addAll_unwritten adds BankWriter.new hw0
  have hgood := finalItems_good adds hnames hconts
  have hinner : ((addAll BankWriter.new adds).write).1.inner =
      bankBytes (finalItems adds) := by
    rw [write_of_unwritten hwa]
    show (withMetadata (addAll BankWriter.new adds)).inner ++ _ = _
    rw [withMetadata_inner hwa, addAll_inner adds BankWriter.new hw0]
    rw [show (BankWriter.new).inner = [] from rfl, List.nil_append, finalItems]
  have hne : ∀ p c, Entry.file p c ∈
      bankEntries (finalItems adds) (presentKinds (finalItems adds)) → c ≠ [] :=
    @bankEntries_contents_good (finalItems adds) hgood.2 (presentKinds (finalItems adds))
  have hfe : ((bankCatalog (finalItems adds)).filter (fun it => it.is_file)).map
      (fun it => (it.path_bytes, it.location.data_offset, it.location.data_size)) =
      fileLocList (dataOffset0 (finalItems adds))
        (fileEntries (bankEntries (finalItems adds) (presentKinds (finalItems adds)))) := by
    rw [bankCatalog]
    exact catalogOf_filter_files hne
  refine ⟨?_, ?_, ?_, ?_⟩
  · rw [write_of_unwritten hwa]
  · rw [hinner]
    exact bank_roundtrip (finalItems adds) hgood.1 hgood.2 hlen
  · have hfst := congrArg (List.map (fun t : List Nat × Nat × Nat => t.1)) hfe
    rw [List.map_map, fileLocList_fst, bankEntries_fileEntries, List.map_map] at hfst
    rw [groupedItems]
    simpa [Function.comp] using hfst
  · have hpairs : ∀ p c, (p, c) ∈
        fileEntries (bankEntries (finalItems adds) (presentKinds (finalItems adds))) →
        c ≠ [] ∧ ∀ b ∈ c, b < 256 := by
      intro p c hm
      rcases mem_bankEntries (mem_fileEntries hm) with ⟨k, _, d, _, hdir⟩ | ⟨it, hit, hfil⟩
      · cases hdir
      · cases hfil
        exact hgood.2 it hit
    have hdp : (bankBytes (finalItems adds)).drop (dataOffset0 (finalItems adds)) =
        flat ((fileEntries (bankEntries (finalItems adds)
          (presentKinds (finalItems adds)))).map (fun pc => pc.2)) ++ [] := by
      rw [bankBytes_drop_payload, payloadBytes_fileEntries, List.append_nil]
    have hchunks := readExactAt_chunks (bankBytes (finalItems adds))
      (fileEntries (bankEntries (finalItems adds) (presentKinds (finalItems adds))))
      (dataOffset0 (finalItems adds)) [] hdp hpairs
    have hmm : ((bankCatalog (finalItems adds)).filter (fun it => it.is_file)).map
        (fun it => readContents (bankBytes (finalItems adds)) it) =
        (((bankCatalog (finalItems adds)).filter (fun it => it.is_file)).map
          (fun it => (it.path_bytes, it.location.data_offset, it.location.data_size))).map
          (fun t => readExactAt (bankBytes (finalItems adds)) t.2.1 t.2.2) := by
      rw [List.map_map]
      rfl
    rw [hmm, hfe, hchunks, bankEntries_fileEntries, List.map_map]
    rw [groupedItems]
    simp [Function.comp]

/-- Claim C1, witness: the amended round trip applied to a writer holding
one Chorus preset. -/
theorem c1_roundtrip_amended_witness :
    ((addAll BankWriter.new [(ItemKind.Chorus, strBytes "a.ksch", [1, 2, 3])]).write).2 =
      .ok () ∧
    bankReaderNew (((addAll BankWriter.new
        [(ItemKind.Chorus, strBytes "a.ksch", [1, 2, 3])]).write).1.inner) =
      .ok (bankCatalog (finalItems [(ItemKind.Chorus, strBytes "a.ksch", [1, 2, 3])])) ∧
    ((bankCatalog (finalItems [(ItemKind.Chorus, strBytes "a.ksch", [1, 2, 3])])).filter
        (fun it => it.is_file)).map (fun it => it.path_bytes) =
      (groupedItems (finalItems [(ItemKind.Chorus, strBytes "a.ksch", [1, 2, 3])])).map
        (fun it => it.path_os) ∧
    ((bankCatalog (finalItems [(ItemKind.Chorus, strBytes "a.ksch", [1, 2, 3])])).filter
        (fun it => it.is_file)).map
        (fun it => readContents
          (bankBytes (finalItems [(ItemKind.Chorus, strBytes "a.ksch", [1, 2, 3])])) it) =
      (groupedItems (finalItems [(ItemKind.Chorus, strBytes "a.ksch", [1, 2, 3])])).map
        (fun it => some it.contents) :=
  c1_roundtrip_amended [(ItemKind.Chorus, strBytes "a.ksch", [1, 2, 3])]
    (by decide) (by decide) (by decide)

end Kibank
